import Mathlib

/-!
Verification of the dependency-resolution and orchestration core of the
dact-pipeline test-scenario executor.

The definitions below are a shallow embedding of the Python sources:
  * `dact/dependency_resolver.py` — template-reference scanner, dependency
    graph builder, topological leveler, dependency validation;
  * `dact/runner.py` (`run_case`, scenario mode) — the sequential
    orchestration loop with its failure policy;
  * `dact/pytest_plugin.py` (`DactScenarioItem.runtest`, scenario mode) —
    the pytest orchestration loop, which additionally records every step
    failure in an execution summary.

Python dictionaries are modelled as insertion-ordered association lists
(the key-update operation keeps the original position, as CPython does);
Python sets whose iteration order is irrelevant downstream are modelled as
duplicate-free lists in first-insertion order.  Machine-level concerns
(filesystem paths, process spawning, Jinja2 rendering) sit behind the same
collaborator boundaries the source uses: the executor and the parameter
renderer are function parameters of the orchestration model, and each
executed step is recorded in an explicit trace.
-/

namespace Dact

/-- A parameter value: a string (possibly holding Jinja2 placeholders), a
list, a nested map, or some other scalar leaf (number, boolean, null). -/
inductive PValue where
  | vStr : String → PValue
  | vList : List PValue → PValue
  | vMap : List (String × PValue) → PValue
  | vOther : PValue

/-- A scenario step (`dact/models.py`, class `Step`); only the fields read
by the dependency resolver and the orchestration loops are carried. -/
structure Step where
  name : String
  tool : String
  description : Option String := none
  params : List (String × PValue) := []
  depends_on : Option (List String) := none
  continue_on_failure : Bool := false

/-- A scenario (`dact/models.py`, class `Scenario`); only the fields read
by the modelled code are carried. -/
structure Scenario where
  name : String
  steps : List Step

/-- A node of the dependency graph (`dependency_resolver.py`,
`DependencyNode`). -/
structure DependencyNode where
  name : String
  tool : String
  description : Option String
  dependencies : List String
deriving DecidableEq, Repr

/-- The dependency graph (`dependency_resolver.py`, `DependencyGraph`). -/
structure DependencyGraph where
  nodes : List (String × DependencyNode)
  edges : List (String × String)
  execution_order : List (List String)
deriving DecidableEq, Repr

/-- Python-dict insertion: an existing key is updated in place (keeping its
original position), a fresh key is appended. -/
def dictInsert {α : Type} (d : List (String × α)) (k : String) (v : α) :
    List (String × α) :=
  if d.any (fun p => p.1 == k) then
    d.map (fun p => if p.1 == k then (k, v) else p)
  else d ++ [(k, v)]

/-- Python-set insertion on a duplicate-free list. -/
def pySetAdd (s : List String) (x : String) : List String :=
  if s.contains x then s else s ++ [x]

/-- Python `set.update` / `set(xs)` on a duplicate-free list. -/
def pySetUpdate (s : List String) (xs : List String) : List String :=
  xs.foldl pySetAdd s

/-- Characters matched by Python's regex class `\s` (ASCII range). -/
def isPyWs (c : Char) : Bool :=
  c == ' ' || c == '\t' || c == '\n' || c == '\r' ||
  c == Char.ofNat 11 || c == Char.ofNat 12

/-- The character `\x7b` (opening curly brace). -/
def lbrace : Char := Char.ofNat 123

/-- Match a literal character sequence at the front of the input, returning
the remainder on success. -/
def dropPrefixChars : List Char → List Char → Option (List Char)
  | [], cs => some cs
  | _ :: _, [] => none
  | p :: ps, c :: cs => if c == p then dropPrefixChars ps cs else none

/-- One match attempt of the regex `\x7b\x7b\s*steps\.([^.]+)\.` at the head
of the input (`dependency_resolver.py` line 99).  Returns the capture and
the input remaining after the match.  The regex needs no backtracking: the
greedy `\s*` run cannot overlap the literal `s`, and the greedy `[^.]+` run
cannot overlap the literal dot. -/
def matchAt (cs : List Char) : Option (String × List Char) :=
  match dropPrefixChars [lbrace, lbrace] cs with
  | none => none
  | some afterBraces =>
    match dropPrefixChars "steps.".toList (afterBraces.dropWhile isPyWs) with
    | none => none
    | some afterSteps =>
      let cap := afterSteps.takeWhile (fun c => !(c == '.'))
      if cap.isEmpty then none
      else
        match afterSteps.dropWhile (fun c => !(c == '.')) with
        | '.' :: rest => some (String.mk cap, rest)
        | _ => none

/-- Left-to-right non-overlapping scan of `re.findall`: on a match, resume
after it; otherwise advance one character.  The fuel argument bounds the
number of scan positions; the initial fuel `cs.length` always suffices
because every recursive call strictly shortens the input. -/
def scanAux : Nat → List Char → List String
  | 0, _ => []
  | _, [] => []
  | fuel + 1, c :: rest =>
    match matchAt (c :: rest) with
    | some (cap, after) => cap :: scanAux fuel after
    | none => scanAux fuel rest

/-- Model of `re.findall(r'\x7b\x7b\s*steps\.([^.]+)\.', s)`. -/
def findMatches (s : String) : List String :=
  scanAux s.toList.length s.toList

/-- Model of `DependencyResolver._extract_template_dependencies`
(`dependency_resolver.py` lines 85-102): only top-level parameter values
that are strings are inspected; the matches feed a Python set, returned as
a list.  CPython leaves the iteration order of that set unspecified; the
model fixes first-insertion order, and no downstream consumer depends on
the order.  `etdStepFold` is the loop body over one parameter value. -/
def etdStepFold (dependencies : List String) (kv : String × PValue) : List String :=
  match kv.2 with
  | PValue.vStr s => pySetUpdate dependencies (findMatches s)
  | _ => dependencies

/-- Model of `DependencyResolver._extract_template_dependencies`, the loop over
`step.params.values()`. -/
def extract_template_dependencies (step : Step) : List String :=
  step.params.foldl etdStepFold []

/-- Model of `list(set(explicit_deps + implicit_deps))`
(`dependency_resolver.py` line 63). -/
def all_deps (step : Step) : List String :=
  pySetUpdate [] (step.depends_on.getD [] ++ extract_template_dependencies step)

/-- Python `repr` of a list of strings, as used by the f-string in the
circular-dependency message. -/
def pyListRepr (l : List String) : String :=
  "[" ++ String.intercalate ", " (l.map (fun s => "\x27" ++ s ++ "\x27")) ++ "]"

/-- The `ValueError` message of `_calculate_execution_order`. -/
def circularMsg (l : List String) : String :=
  "Circular dependency detected among steps: " ++ pyListRepr l

/-- One iteration's `ready_steps`: the names of the entries whose remaining
dependency set is empty (`dependency_resolver.py` lines 120-123), in dict
order. -/
def readySteps (remaining : List (String × List String)) : List String :=
  (remaining.filter (fun p => p.2.isEmpty)).map Prod.fst

/-- One iteration's updated `remaining_deps`: drop the ready entries and
subtract the processed set from every remaining dependency set
(`dependency_resolver.py` lines 134-140). -/
def nextRemaining (remaining : List (String × List String))
    (processed2 : List String) : List (String × List String) :=
  (remaining.filter (fun p => !((readySteps remaining).contains p.1))).map
    (fun p => (p.1, p.2.filter (fun d => !(processed2.contains d))))

/-- The loop body of `DependencyResolver._calculate_execution_order`
(`dependency_resolver.py` lines 104-142).  `remaining` is the
`remaining_deps` dict (dependency lists read as sets), `processed` the
`processed` set.  The fuel bounds the number of loop iterations; the
initial fuel `remaining.length` always suffices, because an iteration that
does not fail removes at least one entry, so the fuel-exhaustion branch is
unreachable from `calculate_execution_order`. -/
def calcOrderGo : Nat → List (String × List String) → List String →
    Except String (List (List String))
  | _, [], _ => Except.ok []
  | 0, _ :: _, _ => Except.error "fuel exhausted"
  | fuel + 1, q :: r, processed =>
    let remaining := q :: r
    if (readySteps remaining).isEmpty then
      Except.error (circularMsg (remaining.map Prod.fst))
    else
      let processed2 := processed ++ readySteps remaining
      match calcOrderGo fuel (nextRemaining remaining processed2) processed2 with
      | Except.error e => Except.error e
      | Except.ok rest => Except.ok (readySteps remaining :: rest)

/-- Model of `DependencyResolver._calculate_execution_order`: a raised `ValueError`
becomes `Except.error`. -/
def calculate_execution_order (nodes : List (String × DependencyNode)) :
    Except String (List (List String)) :=
  let remaining_deps := nodes.map (fun p => (p.1, p.2.dependencies))
  calcOrderGo remaining_deps.length remaining_deps []

/-- The `DependencyNode` built for one step
(`dependency_resolver.py` lines 65-70). -/
def mkNode (step : Step) : DependencyNode :=
  ⟨step.name, step.tool, step.description, all_deps step⟩

/-- The node/edge-building loop of `DependencyResolver.extract_dependencies`
(`dependency_resolver.py` lines 54-74). -/
def buildGraphParts (sc : Scenario) :
    List (String × DependencyNode) × List (String × String) :=
  sc.steps.foldl
    (fun acc step =>
      (dictInsert acc.1 step.name (mkNode step),
       acc.2 ++ (all_deps step).map (fun dep => (dep, step.name))))
    ([], [])

/-- Model of `DependencyResolver.extract_dependencies`
(`dependency_resolver.py` lines 44-83). -/
def extract_dependencies (sc : Scenario) : Except String DependencyGraph :=
  let parts := buildGraphParts sc
  match calculate_execution_order parts.1 with
  | Except.error e => Except.error e
  | Except.ok order => Except.ok ⟨parts.1, parts.2, order⟩

/-- The per-missing-reference message of
`DependencyResolver.validate_dependencies`. -/
def missingMsg (s d : String) : String :=
  "Step \x27" ++ s ++ "\x27 depends on non-existent step \x27" ++ d ++ "\x27"

/-- The missing-reference pass of `validate_dependencies`
(`dependency_resolver.py` lines 148-163). -/
def validateMissing (sc : Scenario) : List String :=
  let step_names := sc.steps.map Step.name
  sc.steps.foldl
    (fun errors step =>
      (errors ++
        ((step.depends_on.getD []).filter
          (fun d => !(step_names.contains d))).map (missingMsg step.name)) ++
      ((extract_template_dependencies step).filter
          (fun d => !(step_names.contains d))).map (missingMsg step.name))
    []

/-- Model of `DependencyResolver.validate_dependencies`
(`dependency_resolver.py` lines 144-173). -/
def validate_dependencies (sc : Scenario) : List String :=
  let errors := validateMissing sc
  if errors.isEmpty then
    match extract_dependencies sc with
    | Except.error e => [e]
    | Except.ok _ => []
  else errors

/-- The execution context entry map `run_context["steps"]`: step name to
the `outputs` mapping committed for that step. -/
abbrev Ctx := List (String × List (String × String))

/-- The normalized result dictionary returned by `Executor.execute`
(`returncode`, `outputs`, `command`, and the tool-level validation verdict
that the orchestration loops never consult for their failure policy). -/
structure ExecResult where
  returncode : Int
  outputs : List (String × String)
  command : String
  validation : Bool
deriving DecidableEq, Repr

/-- Model of `next((s for s in scenario.steps if s.name == step_name), None)`. -/
def findStep (steps : List Step) (n : String) : Option Step :=
  steps.find? (fun s => s.name == n)

/-- The outcome of `run_case` (`runner.py`, class `CaseRunResult`,
restricted to the fields the scenario path sets). -/
structure CaseRunResult where
  success : Bool
  errors : List String
deriving DecidableEq, Repr

/-- A `run_case` run together with the trace of executed steps and the
final `run_context["steps"]` map — the side effects of the loop made
explicit. -/
structure RunTrace where
  result : CaseRunResult
  executed : List (String × ExecResult)
  ctx : Ctx
deriving DecidableEq, Repr

/-- The two error strings returned when a step fails fatally
(`runner.py` lines 146-149). -/
def failMsgs (step : Step) (r : ExecResult) : List String :=
  ["Step \x27" ++ step.name ++ "\x27 failed with exit code " ++
     toString r.returncode ++ ".",
   "Command: " ++ r.command]

/-- Message of `runner.py` line 119. -/
def stepNotFoundMsg (sc : Scenario) (n : String) : String :=
  "Step \x27" ++ n ++ "\x27 not found in scenario \x27" ++ sc.name ++ "\x27."

/-- Message of `runner.py` line 127. -/
def toolNotFoundMsg (step : Step) : String :=
  "Tool \x27" ++ step.tool ++ "\x27 not found for step \x27" ++ step.name ++ "\x27."

/-- The observable state of the `run_case` level loop: the executed-step
trace, the current `run_context["steps"]` map, and `some errors` when one
of the early `return CaseRunResult(..., False, ...)` paths was taken. -/
structure RunLevelResult where
  executed : List (String × ExecResult)
  ctx : Ctx
  aborted : Option (List String)
deriving DecidableEq, Repr

/-- The inner `for step_name in level` body of `run_case`
(`runner.py` lines 116-149).  `renderF` stands for the parameter assembly
and Jinja2 rendering of lines 129-138 (an external collaborator), `execF`
for `Executor(...).execute` (line 141).  The context commit of line 143
happens before the failure check of line 145. -/
def run_level (sc : Scenario) (tools : List String)
    (renderF : Step → Ctx → List (String × PValue))
    (execF : Step → List (String × PValue) → ExecResult) :
    List String → Ctx → RunLevelResult
  | [], ctx => ⟨[], ctx, none⟩
  | n :: rest, ctx =>
    match findStep sc.steps n with
    | none => ⟨[], ctx, some [stepNotFoundMsg sc n]⟩
    | some step =>
      if tools.contains step.tool then
        let r := execF step (renderF step ctx)
        let ctx2 := dictInsert ctx step.name r.outputs
        if r.returncode != 0 && !step.continue_on_failure then
          ⟨[(step.name, r)], ctx2, some (failMsgs step r)⟩
        else
          let res := run_level sc tools renderF execF rest ctx2
          ⟨(step.name, r) :: res.executed, res.ctx, res.aborted⟩
      else ⟨[], ctx, some [toolNotFoundMsg step]⟩

/-- The outer `for level in graph.execution_order` loop of `run_case`
(`runner.py` line 115). -/
def run_levels (sc : Scenario) (tools : List String)
    (renderF : Step → Ctx → List (String × PValue))
    (execF : Step → List (String × PValue) → ExecResult) :
    List (List String) → Ctx → RunLevelResult
  | [], ctx => ⟨[], ctx, none⟩
  | lvl :: rest, ctx =>
    let res := run_level sc tools renderF execF lvl ctx
    match res.aborted with
    | some _ => res
    | none =>
      let res2 := run_levels sc tools renderF execF rest res.ctx
      ⟨res.executed ++ res2.executed, res2.ctx, res2.aborted⟩

/-- The scenario path of `run_case` (`runner.py` lines 94-160): dependency
validation, graph extraction, then the level loop.  The final case-level
validation block (lines 152-157) belongs to the external validation
engine and runs only after every level completed, so it is outside this
core model. -/
def run_case_scenario (sc : Scenario) (tools : List String)
    (renderF : Step → Ctx → List (String × PValue))
    (execF : Step → List (String × PValue) → ExecResult) : RunTrace :=
  let errors := validate_dependencies sc
  if errors.isEmpty then
    match extract_dependencies sc with
    | Except.error e => ⟨⟨false, [e]⟩, [], []⟩
    | Except.ok graph =>
      let res := run_levels sc tools renderF execF graph.execution_order []
      match res.aborted with
      | some errs => ⟨⟨false, errs⟩, res.executed, res.ctx⟩
      | none => ⟨⟨true, []⟩, res.executed, res.ctx⟩
  else ⟨⟨false, "Scenario dependency validation failed:" :: errors⟩, [], []⟩

/-- Message passed to `pytest.fail` for a fatally failing step
(`pytest_plugin.py` lines 374-379); the trailing log-directory line is a
filesystem path outside this model. -/
def plugin_fail_msg (step : Step) (r : ExecResult) : String :=
  "Step \x27" ++ step.name ++ "\x27 failed with exit code " ++
    toString r.returncode ++ ".\n" ++ "Command: " ++ r.command

/-- Message of `pytest_plugin.py` line 325. -/
def pluginStepNotFoundMsg (n : String) : String :=
  "Step \x27" ++ n ++ "\x27 not found in scenario definition."

/-- Message of `pytest_plugin.py` line 335. -/
def pluginToolNotFoundMsg (step : Step) : String :=
  "Tool \x27" ++ step.tool ++ "\x27 not found for step \x27" ++ step.name ++ "\x27."

/-- The observable state of one `DactScenarioItem.runtest` scenario run:
the executed-step trace, the `execution_summary["errors"]` records
(step name, exit code, command), the final context, and `some message`
when `pytest.fail` aborted the run. -/
structure PluginRunResult where
  executed : List (String × ExecResult)
  error_records : List (String × Int × String)
  ctx : Ctx
  aborted : Option String
deriving DecidableEq, Repr

/-- The inner step loop of `DactScenarioItem.runtest`
(`pytest_plugin.py` lines 322-379): like the runner loop, but every
failing step is first recorded in `execution_summary["errors"]`, and only
then does `continue_on_failure` decide between continuing and
`pytest.fail`. -/
def plugin_run_level (sc : Scenario) (tools : List String)
    (renderF : Step → Ctx → List (String × PValue))
    (execF : Step → List (String × PValue) → ExecResult) :
    List String → Ctx → PluginRunResult
  | [], ctx => ⟨[], [], ctx, none⟩
  | n :: rest, ctx =>
    match findStep sc.steps n with
    | none => ⟨[], [], ctx, some (pluginStepNotFoundMsg n)⟩
    | some step =>
      if tools.contains step.tool then
        let r := execF step (renderF step ctx)
        let ctx2 := dictInsert ctx step.name r.outputs
        if r.returncode != 0 then
          let er := (step.name, r.returncode, r.command)
          if step.continue_on_failure then
            let res := plugin_run_level sc tools renderF execF rest ctx2
            ⟨(step.name, r) :: res.executed, er :: res.error_records,
             res.ctx, res.aborted⟩
          else ⟨[(step.name, r)], [er], ctx2, some (plugin_fail_msg step r)⟩
        else
          let res := plugin_run_level sc tools renderF execF rest ctx2
          ⟨(step.name, r) :: res.executed, res.error_records, res.ctx, res.aborted⟩
      else ⟨[], [], ctx, some (pluginToolNotFoundMsg step)⟩

/-- The outer level loop of `DactScenarioItem.runtest`
(`pytest_plugin.py` line 320). -/
def plugin_run_levels (sc : Scenario) (tools : List String)
    (renderF : Step → Ctx → List (String × PValue))
    (execF : Step → List (String × PValue) → ExecResult) :
    List (List String) → Ctx → PluginRunResult
  | [], ctx => ⟨[], [], ctx, none⟩
  | lvl :: rest, ctx =>
    let res := plugin_run_level sc tools renderF execF lvl ctx
    match res.aborted with
    | some _ => res
    | none =>
      let res2 := plugin_run_levels sc tools renderF execF rest res.ctx
      ⟨res.executed ++ res2.executed, res.error_records ++ res2.error_records,
       res2.ctx, res2.aborted⟩

/-- The scenario path of `DactScenarioItem.runtest`
(`pytest_plugin.py` lines 293-379): dependency validation (failures are a
`pytest.fail` with the joined messages), graph extraction, then the level
loop. -/
def plugin_runtest (sc : Scenario) (tools : List String)
    (renderF : Step → Ctx → List (String × PValue))
    (execF : Step → List (String × PValue) → ExecResult) : PluginRunResult :=
  let validation_errors := validate_dependencies sc
  if validation_errors.isEmpty then
    match extract_dependencies sc with
    | Except.error e => ⟨[], [], [], some e⟩
    | Except.ok graph =>
      plugin_run_levels sc tools renderF execF graph.execution_order []
  else
    ⟨[], [], [], some ("Scenario dependency validation failed:\n" ++
      String.intercalate "\n" validation_errors)⟩

/-- The index of the level containing a step name; the level count when no
level contains it. -/
def levelIdx (order : List (List String)) (n : String) : Nat :=
  order.findIdx (fun lvl => lvl.contains n)

/-- Spec wording (§4.1): the identifier of a `steps.<identifier>.`
placeholder is alphanumeric/underscore. -/
def isWordChar (c : Char) : Bool := c.isAlphanum || c == '_'

/-- Spec wording: one occurrence of `steps.<identifier>.` at the head of
the input, the identifier alphanumeric/underscore. -/
def specIdentAt (cs : List Char) : Option String :=
  match dropPrefixChars "steps.".toList cs with
  | none => none
  | some rest =>
    let w := rest.takeWhile isWordChar
    if w.isEmpty then none
    else
      match rest.drop w.length with
      | '.' :: _ => some (String.mk w)
      | _ => none

/-- Spec wording: every identifier occurring in a `steps.<identifier>.`
token anywhere in a string. -/
def specScanChars : List Char → List String
  | [] => []
  | c :: rest =>
    (match specIdentAt (c :: rest) with
     | some w => [w]
     | none => []) ++ specScanChars rest

/-- Spec wording (claim C3): the scanner "recursively walks strings, lists,
and nested maps" and collects every distinct identifier of a
`steps.<identifier>.` token anywhere in the tree; non-string leaves
contribute nothing.  The depth argument bounds the recursion; any bound at
least the height of the tree realises the full walk. -/
def spec_scan_value (X : List String) : Nat → PValue → List String
  | 0, _ => X
  | _ + 1, PValue.vStr s => pySetUpdate X (specScanChars s.toList)
  | d + 1, PValue.vList l => l.foldl (fun acc v => spec_scan_value acc d v) X
  | d + 1, PValue.vMap m => m.foldl (fun acc kv => spec_scan_value acc d kv.2) X
  | _ + 1, PValue.vOther => X

/-- Spec wording (claim C3): the claimed result of the scanner on a step's
whole parameter tree. -/
def spec_scan_step (d : Nat) (step : Step) : List String :=
  step.params.foldl (fun acc kv => spec_scan_value acc d kv.2) []

/-- Substring test on character lists. -/
def hasSub : List Char → List Char → Bool
  | [], pat => pat.isEmpty
  | c :: rest, pat => pat.isPrefixOf (c :: rest) || hasSub rest pat

/-- Spec wording (claim C8): some parameter of the step "contains a
template reference of the form `steps.X.outputs.y`" — the text
`steps.<X>.outputs.` occurs in a string anywhere in the value tree.  The
depth argument bounds the recursion as in `spec_scan_value`. -/
def spec_contains_ref (X : String) : Nat → PValue → Bool
  | 0, _ => false
  | _ + 1, PValue.vStr s =>
    hasSub s.toList ("steps." ++ X ++ ".outputs.").toList
  | d + 1, PValue.vList l => l.any (fun v => spec_contains_ref X d v)
  | d + 1, PValue.vMap m => m.any (fun kv => spec_contains_ref X d kv.2)
  | _ + 1, PValue.vOther => false

/-! ### Python set and dict model lemmas -/

theorem mem_pySetAdd {s : List String} {x y : String} :
    y ∈ pySetAdd s x ↔ y ∈ s ∨ y = x := by
  simp only [pySetAdd]
  by_cases h : x ∈ s
  · rw [if_pos (by simpa using h)]
    constructor
    · exact Or.inl
    · rintro (hy | rfl)
      · exact hy
      · exact h
  · rw [if_neg (by simpa using h)]
    simp

theorem nodup_pySetAdd {s : List String} {x : String} (hs : s.Nodup) :
    (pySetAdd s x).Nodup := by
  simp only [pySetAdd]
  by_cases h : x ∈ s
  · rw [if_pos (by simpa using h)]
    exact hs
  · rw [if_neg (by simpa using h)]
    simp [List.nodup_append, hs, h]

theorem mem_pySetUpdate {xs : List String} :
    ∀ {s : List String} {y : String}, y ∈ pySetUpdate s xs ↔ y ∈ s ∨ y ∈ xs := by
  induction xs with
  | nil => simp [pySetUpdate]
  | cons x xs ih =>
    intro s y
    simp only [pySetUpdate, List.foldl_cons] at *
    rw [ih, mem_pySetAdd]
    simp only [List.mem_cons]
    tauto

theorem nodup_pySetUpdate {xs : List String} :
    ∀ {s : List String}, s.Nodup → (pySetUpdate s xs).Nodup := by
  induction xs with
  | nil =>
    intro s hs
    simpa [pySetUpdate] using hs
  | cons x xs ih =>
    intro s hs
    simp only [pySetUpdate, List.foldl_cons]
    exact ih (nodup_pySetAdd hs)

theorem dictInsert_keys {α : Type} (d : List (String × α)) (k : String) (v : α) :
    (dictInsert d k v).map Prod.fst =
      if d.any (fun p => p.1 == k) then d.map Prod.fst
      else d.map Prod.fst ++ [k] := by
  by_cases h : d.any (fun p => p.1 == k)
  · simp only [dictInsert, h, if_true, List.map_map]
    refine List.map_congr_left ?_
    intro p _
    by_cases hp : p.1 = k
    · simp [Function.comp, beq_iff_eq, hp]
    · simp [Function.comp, beq_iff_eq, hp]
  · simp [dictInsert, h]

theorem dictInsert_keys_nodup {α : Type} {d : List (String × α)}
    (hd : (d.map Prod.fst).Nodup) (k : String) (v : α) :
    ((dictInsert d k v).map Prod.fst).Nodup := by
  rw [dictInsert_keys]
  by_cases h : d.any (fun p => p.1 == k)
  · simpa [h] using hd
  · have hk : k ∉ d.map Prod.fst := by
      intro hkm
      obtain ⟨p, hp, hpk⟩ := List.mem_map.mp hkm
      exact h (List.any_eq_true.mpr ⟨p, hp, by simp [hpk]⟩)
    simp [h, List.nodup_append, hd, hk]

theorem mem_dictInsert_self {α : Type} (d : List (String × α)) (k : String) (v : α) :
    (k, v) ∈ dictInsert d k v := by
  by_cases h : d.any (fun p => p.1 == k)
  · simp only [dictInsert, h, if_true]
    obtain ⟨p, hp, hpk⟩ := List.any_eq_true.mp h
    refine List.mem_map.mpr ⟨p, hp, ?_⟩
    simp [hpk]
  · simp [dictInsert, h]

theorem mem_dictInsert_of_ne {α : Type} {d : List (String × α)} {n k : String}
    {o : α} (hmem : (n, o) ∈ d) (hne : k ≠ n) (v : α) :
    (n, o) ∈ dictInsert d k v := by
  by_cases h : d.any (fun p => p.1 == k)
  · simp only [dictInsert, h, if_true]
    refine List.mem_map.mpr ⟨(n, o), hmem, ?_⟩
    have hno : ¬((n, o).1 == k) = true := by
      simp only [beq_iff_eq]
      exact fun hh => hne hh.symm
    simp [hno]
  · simp [dictInsert, h, hmem]

/-! ### Scanner and graph-builder characterization -/

theorem etdStepFold_mem {acc : List String} {kv : String × PValue} {d : String} :
    d ∈ etdStepFold acc kv ↔
      d ∈ acc ∨ ∃ s, kv.2 = PValue.vStr s ∧ d ∈ findMatches s := by
  cases hkv : kv.2 with
  | vStr s =>
    have h1 : etdStepFold acc kv = pySetUpdate acc (findMatches s) := by
      simp [etdStepFold, hkv]
    rw [h1, mem_pySetUpdate]
    simp [hkv]
  | vList l =>
    have h1 : etdStepFold acc kv = acc := by
      simp [etdStepFold, hkv]
    rw [h1]
    simp [hkv]
  | vMap m =>
    have h1 : etdStepFold acc kv = acc := by
      simp [etdStepFold, hkv]
    rw [h1]
    simp [hkv]
  | vOther =>
    have h1 : etdStepFold acc kv = acc := by
      simp [etdStepFold, hkv]
    rw [h1]
    simp [hkv]

theorem etd_foldl_mem (ps : List (String × PValue)) :
    ∀ (acc : List String) (d : String),
      d ∈ ps.foldl etdStepFold acc ↔
      d ∈ acc ∨ ∃ kv ∈ ps, ∃ s, kv.2 = PValue.vStr s ∧ d ∈ findMatches s := by
  induction ps with
  | nil => simp
  | cons kv rest ih =>
    intro acc d
    simp only [List.foldl_cons]
    rw [ih, etdStepFold_mem]
    simp only [List.mem_cons, exists_eq_or_imp]
    exact or_assoc

theorem mem_extract_template_dependencies {step : Step} {d : String} :
    d ∈ extract_template_dependencies step ↔
      ∃ kv ∈ step.params, ∃ s, kv.2 = PValue.vStr s ∧ d ∈ findMatches s := by
  rw [extract_template_dependencies, etd_foldl_mem]
  simp

theorem etdStepFold_nodup {acc : List String} {kv : String × PValue}
    (hacc : acc.Nodup) : (etdStepFold acc kv).Nodup := by
  cases hkv : kv.2 with
  | vStr s =>
    have h1 : etdStepFold acc kv = pySetUpdate acc (findMatches s) := by
      simp [etdStepFold, hkv]
    rw [h1]
    exact nodup_pySetUpdate hacc
  | vList l =>
    have h1 : etdStepFold acc kv = acc := by
      simp [etdStepFold, hkv]
    rw [h1]
    exact hacc
  | vMap m =>
    have h1 : etdStepFold acc kv = acc := by
      simp [etdStepFold, hkv]
    rw [h1]
    exact hacc
  | vOther =>
    have h1 : etdStepFold acc kv = acc := by
      simp [etdStepFold, hkv]
    rw [h1]
    exact hacc

theorem etd_foldl_nodup (ps : List (String × PValue)) :
    ∀ {acc : List String}, acc.Nodup → (ps.foldl etdStepFold acc).Nodup := by
  induction ps with
  | nil =>
    intro acc hacc
    simpa using hacc
  | cons kv rest ih =>
    intro acc hacc
    simp only [List.foldl_cons]
    exact ih (etdStepFold_nodup hacc)

theorem nodup_extract_template_dependencies (step : Step) :
    (extract_template_dependencies step).Nodup :=
  etd_foldl_nodup step.params List.nodup_nil

theorem mem_all_deps {step : Step} {d : String} :
    d ∈ all_deps step ↔
      d ∈ step.depends_on.getD [] ∨ d ∈ extract_template_dependencies step := by
  rw [all_deps, mem_pySetUpdate]
  simp

theorem nodup_all_deps (step : Step) : (all_deps step).Nodup :=
  nodup_pySetUpdate List.nodup_nil

theorem bgp_foldl_snd (steps : List Step) :
    ∀ (acc : List (String × DependencyNode) × List (String × String)),
      (steps.foldl
        (fun acc step =>
          (dictInsert acc.1 step.name (mkNode step),
           acc.2 ++ (all_deps step).map (fun dep => (dep, step.name)))) acc).2 =
      acc.2 ++ steps.flatMap
        (fun step => (all_deps step).map (fun dep => (dep, step.name))) := by
  induction steps with
  | nil => simp
  | cons st rest ih =>
    intro acc
    simp only [List.foldl_cons, ih, List.flatMap_cons, List.append_assoc]

theorem buildGraphParts_edges (sc : Scenario) :
    (buildGraphParts sc).2 = sc.steps.flatMap
      (fun step => (all_deps step).map (fun dep => (dep, step.name))) := by
  rw [buildGraphParts, bgp_foldl_snd]
  simp

theorem bgp_foldl_fst_of_nodup (steps : List Step) :
    ∀ (acc : List (String × DependencyNode) × List (String × String)),
      (acc.1.map Prod.fst ++ steps.map Step.name).Nodup →
      (steps.foldl
        (fun acc step =>
          (dictInsert acc.1 step.name (mkNode step),
           acc.2 ++ (all_deps step).map (fun dep => (dep, step.name)))) acc).1 =
      acc.1 ++ steps.map (fun step => (step.name, mkNode step)) := by
  induction steps with
  | nil => simp
  | cons st rest ih =>
    intro acc hnd
    have hfresh : st.name ∉ acc.1.map Prod.fst := by
      have := List.disjoint_of_nodup_append hnd
      intro hmem
      exact this hmem (by simp)
    have hnoany : ¬ (acc.1.any (fun p => p.1 == st.name)) = true := by
      intro hany
      obtain ⟨p, hp, hpk⟩ := List.any_eq_true.mp hany
      exact hfresh (List.mem_map.mpr ⟨p, hp, by simpa using hpk⟩)
    simp only [List.foldl_cons]
    have hins : dictInsert acc.1 st.name (mkNode st) =
        acc.1 ++ [(st.name, mkNode st)] := by
      simp [dictInsert, hnoany]
    have hnd2 : ((acc.1 ++ [(st.name, mkNode st)]).map Prod.fst ++
        rest.map Step.name).Nodup := by
      simpa [List.append_assoc] using hnd
    rw [show (dictInsert acc.1 st.name (mkNode st),
          acc.2 ++ (all_deps st).map (fun dep => (dep, st.name))) =
        ((acc.1 ++ [(st.name, mkNode st)] : List (String × DependencyNode)),
          acc.2 ++ (all_deps st).map (fun dep => (dep, st.name))) by rw [hins]]
    rw [ih _ hnd2]
    simp

theorem buildGraphParts_nodes_of_nodup (sc : Scenario)
    (hnd : (sc.steps.map Step.name).Nodup) :
    (buildGraphParts sc).1 =
      sc.steps.map (fun step => (step.name, mkNode step)) := by
  rw [buildGraphParts, bgp_foldl_fst_of_nodup]
  · simp
  · simpa using hnd

theorem bgp_foldl_fst_keys_nodup (steps : List Step) :
    ∀ (acc : List (String × DependencyNode) × List (String × String)),
      (acc.1.map Prod.fst).Nodup →
      ((steps.foldl
        (fun acc step =>
          (dictInsert acc.1 step.name (mkNode step),
           acc.2 ++ (all_deps step).map (fun dep => (dep, step.name)))) acc).1.map
        Prod.fst).Nodup := by
  induction steps with
  | nil =>
    intro acc h
    simpa using h
  | cons st rest ih =>
    intro acc h
    simp only [List.foldl_cons]
    exact ih _ (dictInsert_keys_nodup h st.name (mkNode st))

theorem buildGraphParts_keys_nodup (sc : Scenario) :
    ((buildGraphParts sc).1.map Prod.fst).Nodup := by
  rw [buildGraphParts]
  exact bgp_foldl_fst_keys_nodup sc.steps ([], []) (by simp)

/-! ### Topological leveler lemmas -/

theorem nodup_keys_val_eq {α : Type} :
    ∀ {l : List (String × α)}, (l.map Prod.fst).Nodup →
      ∀ {k : String} {v w : α}, (k, v) ∈ l → (k, w) ∈ l → v = w := by
  intro l
  induction l with
  | nil =>
    intro _ k v w hv _
    cases hv
  | cons p rest ih =>
    intro hnd k v w hv hw
    simp only [List.map_cons, List.nodup_cons] at hnd
    rcases List.mem_cons.mp hv with hv1 | hv2
    · rcases List.mem_cons.mp hw with hw1 | hw2
      · have h1 : (k, v) = (k, w) := hv1.trans hw1.symm
        simpa using h1
      · exfalso
        apply hnd.1
        rw [← hv1]
        exact List.mem_map.mpr ⟨(k, w), hw2, rfl⟩
    · rcases List.mem_cons.mp hw with hw1 | hw2
      · exfalso
        apply hnd.1
        rw [← hw1]
        exact List.mem_map.mpr ⟨(k, v), hv2, rfl⟩
      · exact ih hnd.2 hv2 hw2

theorem readySteps_sublist (r : List (String × List String)) :
    (readySteps r).Sublist (r.map Prod.fst) :=
  List.Sublist.map Prod.fst (List.filter_sublist r)

theorem mem_readySteps_iff {r : List (String × List String)} {b : String} :
    b ∈ readySteps r ↔ (b, ([] : List String)) ∈ r := by
  constructor
  · intro hb
    obtain ⟨q, hq, hq1⟩ := List.mem_map.mp hb
    obtain ⟨q1, q2⟩ := q
    have hq2 := List.mem_filter.mp hq
    have hq3 : q2 = [] := by simpa using hq2.2
    have hq4 : q1 = b := by simpa using hq1
    rw [← hq3, ← hq4]
    exact hq2.1
  · intro hb
    exact List.mem_map.mpr ⟨(b, []), List.mem_filter.mpr ⟨hb, by simp⟩, rfl⟩

theorem not_ready_of_deps_ne {r : List (String × List String)}
    (hnd : (r.map Prod.fst).Nodup) {b : String} {deps : List String}
    (hb : (b, deps) ∈ r) (hne : deps ≠ []) : b ∉ readySteps r := by
  intro hmem
  exact hne (nodup_keys_val_eq hnd hb (mem_readySteps_iff.mp hmem))

theorem mem_nextRemaining {r : List (String × List String)}
    (proc : List String) {b : String} {deps : List String}
    (hb : (b, deps) ∈ r) (hnr : b ∉ readySteps r) :
    (b, deps.filter (fun d => !(proc.contains d))) ∈ nextRemaining r proc := by
  refine List.mem_map.mpr ⟨(b, deps), List.mem_filter.mpr ⟨hb, ?_⟩, rfl⟩
  simpa using hnr

theorem nextRemaining_keys (r : List (String × List String))
    (proc : List String) :
    (nextRemaining r proc).map Prod.fst =
      (r.filter (fun p => !((readySteps r).contains p.1))).map Prod.fst := by
  simp [nextRemaining, List.map_map, Function.comp]

theorem nextRemaining_keys_sublist (r : List (String × List String))
    (proc : List String) :
    ((nextRemaining r proc).map Prod.fst).Sublist (r.map Prod.fst) := by
  rw [nextRemaining_keys]
  exact List.Sublist.map Prod.fst (List.filter_sublist r)

theorem nextRemaining_keys_nodup {r : List (String × List String)}
    (hnd : (r.map Prod.fst).Nodup) (proc : List String) :
    ((nextRemaining r proc).map Prod.fst).Nodup :=
  List.Nodup.sublist (nextRemaining_keys_sublist r proc) hnd

theorem nextRemaining_length_lt {r : List (String × List String)}
    (hne : ¬((readySteps r).isEmpty = true)) (proc : List String) :
    (nextRemaining r proc).length < r.length := by
  rw [nextRemaining, List.length_map, List.length_filter_lt_length_iff_exists]
  have hne2 : readySteps r ≠ [] := by simpa [List.isEmpty_iff] using hne
  obtain ⟨b, hb⟩ := List.exists_mem_of_ne_nil _ hne2
  obtain ⟨q, hq, hq1⟩ := List.mem_map.mp hb
  refine ⟨q, (List.mem_filter.mp hq).1, ?_⟩
  rw [hq1]
  simp [hb]

theorem ready_next_keys_perm {r : List (String × List String)}
    (hnd : (r.map Prod.fst).Nodup) (proc : List String) :
    (readySteps r ++ (nextRemaining r proc).map Prod.fst).Perm
      (r.map Prod.fst) := by
  rw [nextRemaining_keys]
  have hcongr : r.filter (fun p => !((readySteps r).contains p.1)) =
      r.filter (fun p => !(p.2.isEmpty)) := by
    refine List.filter_congr ?_
    intro p hp
    obtain ⟨p1, p2⟩ := p
    by_cases hemp : p2.isEmpty
    · have hp0 : p2 = [] := by simpa using hemp
      have hmem : p1 ∈ readySteps r :=
        mem_readySteps_iff.mpr (by rw [← hp0]; exact hp)
      simp [hmem, hemp]
    · have hmem : p1 ∉ readySteps r := by
        intro hmem
        have h0 : p2 = [] :=
          nodup_keys_val_eq hnd hp (mem_readySteps_iff.mp hmem)
        exact hemp (by simp [h0])
      simp [hmem, hemp]
  rw [hcongr]
  have hperm := (List.filter_append_perm (fun p => p.2.isEmpty) r).map Prod.fst
  simpa [readySteps, List.map_append] using hperm

theorem calcOrderGo_cons_stuck {fuel : Nat} {q : String × List String}
    {r : List (String × List String)} {processed : List String}
    (h : (readySteps (q :: r)).isEmpty = true) :
    calcOrderGo (fuel + 1) (q :: r) processed =
      Except.error (circularMsg ((q :: r).map Prod.fst)) := by
  simp [calcOrderGo, h]

theorem calcOrderGo_cons_err {fuel : Nat} {q : String × List String}
    {r : List (String × List String)} {processed : List String} {e : String}
    (hready : ¬((readySteps (q :: r)).isEmpty = true))
    (hcall : calcOrderGo fuel
        (nextRemaining (q :: r) (processed ++ readySteps (q :: r)))
        (processed ++ readySteps (q :: r)) = Except.error e) :
    calcOrderGo (fuel + 1) (q :: r) processed = Except.error e := by
  simp [calcOrderGo, hready, hcall]

theorem calcOrderGo_cons_ok {fuel : Nat} {q : String × List String}
    {r : List (String × List String)} {processed : List String}
    {order : List (List String)}
    (h : calcOrderGo (fuel + 1) (q :: r) processed = Except.ok order) :
    ¬((readySteps (q :: r)).isEmpty = true) ∧
    ∃ rest, calcOrderGo fuel
        (nextRemaining (q :: r) (processed ++ readySteps (q :: r)))
        (processed ++ readySteps (q :: r)) = Except.ok rest ∧
      order = readySteps (q :: r) :: rest := by
  by_cases hready : (readySteps (q :: r)).isEmpty = true
  · rw [calcOrderGo_cons_stuck hready] at h
    cases h
  · refine ⟨hready, ?_⟩
    simp only [calcOrderGo] at h
    rw [if_neg hready] at h
    cases hcall : calcOrderGo fuel
        (nextRemaining (q :: r) (processed ++ readySteps (q :: r)))
        (processed ++ readySteps (q :: r)) with
    | error e =>
      rw [hcall] at h
      cases h
    | ok rest =>
      rw [hcall] at h
      refine ⟨rest, rfl, ?_⟩
      cases h
      rfl

theorem calcOrderGo_level_sublist :
    ∀ (fuel : Nat) (r : List (String × List String)) (processed : List String)
      {order : List (List String)},
      calcOrderGo fuel r processed = Except.ok order →
      ∀ lvl ∈ order, lvl.Sublist (r.map Prod.fst) := by
  intro fuel
  induction fuel with
  | zero =>
    intro r processed order h lvl hlvl
    cases r with
    | nil =>
      simp only [calcOrderGo] at h
      injection h with h2
      rw [← h2] at hlvl
      cases hlvl
    | cons q rr => simp [calcOrderGo] at h
  | succ fuel ih =>
    intro r processed order h lvl hlvl
    cases r with
    | nil =>
      simp only [calcOrderGo] at h
      injection h with h2
      rw [← h2] at hlvl
      cases hlvl
    | cons q rr =>
      obtain ⟨hready, rest, hcall, horder⟩ := calcOrderGo_cons_ok h
      subst horder
      rcases List.mem_cons.mp hlvl with rfl | htail
      · exact readySteps_sublist (q :: rr)
      · exact (ih _ _ hcall lvl htail).trans (nextRemaining_keys_sublist _ _)

theorem calcOrderGo_perm :
    ∀ (fuel : Nat) (r : List (String × List String)) (processed : List String)
      {order : List (List String)},
      (r.map Prod.fst).Nodup →
      calcOrderGo fuel r processed = Except.ok order →
      order.flatten.Perm (r.map Prod.fst) := by
  intro fuel
  induction fuel with
  | zero =>
    intro r processed order hnd h
    cases r with
    | nil =>
      simp only [calcOrderGo] at h
      injection h with h2
      rw [← h2]
      simp
    | cons q rr => simp [calcOrderGo] at h
  | succ fuel ih =>
    intro r processed order hnd h
    cases r with
    | nil =>
      simp only [calcOrderGo] at h
      injection h with h2
      rw [← h2]
      simp
    | cons q rr =>
      obtain ⟨hready, rest, hcall, horder⟩ := calcOrderGo_cons_ok h
      subst horder
      have hnd2 := nextRemaining_keys_nodup hnd (processed ++ readySteps (q :: rr))
      have hrest := ih _ _ hnd2 hcall
      rw [List.flatten_cons]
      exact (List.Perm.append_left (readySteps (q :: rr)) hrest).trans
        (ready_next_keys_perm hnd _)

theorem calcOrderGo_dep_lt :
    ∀ (fuel : Nat) (r : List (String × List String)) (processed : List String)
      {order : List (List String)} {b : String} {deps : List String} {a : String},
      (r.map Prod.fst).Nodup →
      calcOrderGo fuel r processed = Except.ok order →
      (b, deps) ∈ r → a ∈ deps → a ∉ processed →
      ∃ i j, i < j ∧ ∃ (hi : i < order.length) (hj : j < order.length),
        a ∈ order.get ⟨i, hi⟩ ∧ b ∈ order.get ⟨j, hj⟩ := by
  intro fuel
  induction fuel with
  | zero =>
    intro r processed order b deps a hnd h hb ha hap
    cases r with
    | nil => cases hb
    | cons q rr => simp [calcOrderGo] at h
  | succ fuel ih =>
    intro r processed order b deps a hnd h hb ha hap
    cases r with
    | nil => cases hb
    | cons q rr =>
      obtain ⟨hready, rest, hcall, horder⟩ := calcOrderGo_cons_ok h
      subst horder
      have hdepsne : deps ≠ [] := by
        intro h0
        rw [h0] at ha
        cases ha
      have hbnr : b ∉ readySteps (q :: rr) := not_ready_of_deps_ne hnd hb hdepsne
      have hnd2 := nextRemaining_keys_nodup hnd (processed ++ readySteps (q :: rr))
      have hbmem := mem_nextRemaining (processed ++ readySteps (q :: rr)) hb hbnr
      by_cases haready : a ∈ readySteps (q :: rr)
      · have hbkeys : b ∈ (nextRemaining (q :: rr)
            (processed ++ readySteps (q :: rr))).map Prod.fst :=
          List.mem_map.mpr ⟨_, hbmem, rfl⟩
        have hperm := calcOrderGo_perm fuel _ _ hnd2 hcall
        have hbfl : b ∈ rest.flatten := hperm.mem_iff.mpr hbkeys
        obtain ⟨lvl, hlvl, hblvl⟩ := List.mem_flatten.mp hbfl
        obtain ⟨k, hk⟩ := List.get_of_mem hlvl
        obtain ⟨kv, hkv⟩ := k
        refine ⟨0, kv + 1, Nat.succ_pos _, by simp, by simpa using Nat.succ_lt_succ hkv, ?_, ?_⟩
        · exact haready
        · show b ∈ rest.get ⟨kv, _⟩
          exact hk.symm ▸ hblvl
      · have hap2 : a ∉ processed ++ readySteps (q :: rr) := by
          intro hmem
          rcases List.mem_append.mp hmem with h1 | h1
          · exact hap h1
          · exact haready h1
        have hamem : a ∈ deps.filter
            (fun x => !((processed ++ readySteps (q :: rr)).contains x)) :=
          List.mem_filter.mpr ⟨ha, by simpa using hap2⟩
        obtain ⟨i, j, hij, hi, hj, hai, hbj⟩ := ih _ _ hnd2 hcall hbmem hamem hap2
        refine ⟨i + 1, j + 1, Nat.succ_lt_succ hij,
          Nat.succ_lt_succ hi, Nat.succ_lt_succ hj, ?_, ?_⟩
        · exact hai
        · exact hbj

theorem calcOrderGo_ok_deps_keys {fuel : Nat} {r : List (String × List String)}
    {processed : List String} {order : List (List String)}
    (hnd : (r.map Prod.fst).Nodup)
    (h : calcOrderGo fuel r processed = Except.ok order)
    {n : String} {deps : List String} {d : String}
    (hn : (n, deps) ∈ r) (hd : d ∈ deps) (hdp : d ∉ processed) :
    d ∈ r.map Prod.fst := by
  obtain ⟨i, j, _, hi, _, hai, _⟩ := calcOrderGo_dep_lt fuel r processed hnd h hn hd hdp
  have hfl : d ∈ order.flatten :=
    List.mem_flatten.mpr ⟨_, List.get_mem order _ hi, hai⟩
  exact (calcOrderGo_perm fuel r processed hnd h).subset hfl

theorem calcOrderGo_blocked :
    ∀ (fuel : Nat) (r : List (String × List String)) (processed : List String)
      {n : String} {deps : List String} {d : String},
      r.length ≤ fuel →
      (r.map Prod.fst).Nodup →
      (n, deps) ∈ r → d ∈ deps → d ∉ r.map Prod.fst → d ∉ processed →
      ∃ l, calcOrderGo fuel r processed = Except.error (circularMsg l) ∧ n ∈ l := by
  intro fuel
  induction fuel with
  | zero =>
    intro r processed n deps d hlen hnd hn hd hdk hdp
    have h0 : r = [] := List.length_eq_zero.mp (Nat.le_zero.mp hlen)
    subst h0
    cases hn
  | succ fuel ih =>
    intro r processed n deps d hlen hnd hn hd hdk hdp
    cases r with
    | nil => cases hn
    | cons q rr =>
      by_cases hready : (readySteps (q :: rr)).isEmpty = true
      · refine ⟨(q :: rr).map Prod.fst, calcOrderGo_cons_stuck hready, ?_⟩
        exact List.mem_map.mpr ⟨(n, deps), hn, rfl⟩
      · have hdepsne : deps ≠ [] := by
          intro h0
          rw [h0] at hd
          cases hd
        have hnnr : n ∉ readySteps (q :: rr) := not_ready_of_deps_ne hnd hn hdepsne
        have hdp2 : d ∉ processed ++ readySteps (q :: rr) := by
          intro hmem
          rcases List.mem_append.mp hmem with h1 | h1
          · exact hdp h1
          · exact hdk ((readySteps_sublist _).subset h1)
        have hnmem := mem_nextRemaining (processed ++ readySteps (q :: rr)) hn hnnr
        have hdmem : d ∈ deps.filter
            (fun x => !((processed ++ readySteps (q :: rr)).contains x)) :=
          List.mem_filter.mpr ⟨hd, by simpa using hdp2⟩
        have hdk2 : d ∉ (nextRemaining (q :: rr)
            (processed ++ readySteps (q :: rr))).map Prod.fst := by
          intro hmem
          exact hdk ((nextRemaining_keys_sublist _ _).subset hmem)
        have hnd2 := nextRemaining_keys_nodup hnd (processed ++ readySteps (q :: rr))
        have hlen2 : (nextRemaining (q :: rr)
            (processed ++ readySteps (q :: rr))).length ≤ fuel :=
          Nat.lt_succ_iff.mp (Nat.lt_of_lt_of_le (nextRemaining_length_lt hready _) hlen)
        obtain ⟨l, hcall, hnl⟩ := ih _ _ hlen2 hnd2 hnmem hdmem hdk2 hdp2
        exact ⟨l, calcOrderGo_cons_err hready hcall, hnl⟩

theorem calcOrderGo_stuck (fuel : Nat) (r : List (String × List String))
    (processed : List String) (hlen : r.length ≤ fuel) (hne : r ≠ [])
    (hdeps : ∀ p ∈ r, p.2 ≠ []) :
    calcOrderGo fuel r processed = Except.error (circularMsg (r.map Prod.fst)) := by
  cases r with
  | nil => cases hne rfl
  | cons q rr =>
    cases fuel with
    | zero => exact absurd hlen (by simp)
    | succ fuel =>
      apply calcOrderGo_cons_stuck
      have hfil : (q :: rr).filter (fun p => p.2.isEmpty) = [] := by
        rw [List.filter_eq_nil_iff]
        intro p hp
        simpa using hdeps p hp
      simp [readySteps, hfil]

theorem level_mem_unique :
    ∀ {order : List (List String)}, order.flatten.Nodup →
      ∀ {i j : Nat} (hi : i < order.length) (hj : j < order.length) {a : String},
        a ∈ order.get ⟨i, hi⟩ → a ∈ order.get ⟨j, hj⟩ → i = j := by
  intro order
  induction order with
  | nil =>
    intro _ i j hi
    exact absurd hi (Nat.not_lt_zero i)
  | cons lvl rest ih =>
    intro hnd i j hi hj a hai haj
    obtain ⟨h1, h2, hdisj⟩ := List.nodup_append.mp (by simpa using hnd)
    cases i with
    | zero =>
      cases j with
      | zero => rfl
      | succ j2 =>
        exfalso
        have hfl : a ∈ rest.flatten :=
          List.mem_flatten.mpr ⟨_, List.get_mem rest _ (Nat.lt_of_succ_lt_succ hj), haj⟩
        exact hdisj hai hfl
    | succ i2 =>
      cases j with
      | zero =>
        exfalso
        have hfl : a ∈ rest.flatten :=
          List.mem_flatten.mpr ⟨_, List.get_mem rest _ (Nat.lt_of_succ_lt_succ hi), hai⟩
        exact hdisj haj hfl
      | succ j2 =>
        exact congrArg Nat.succ
          (ih h2 (Nat.lt_of_succ_lt_succ hi) (Nat.lt_of_succ_lt_succ hj) hai haj)

theorem levelIdx_eq :
    ∀ {order : List (List String)}, order.flatten.Nodup →
      ∀ {i : Nat} (hi : i < order.length) {a : String},
        a ∈ order.get ⟨i, hi⟩ → levelIdx order a = i := by
  intro order
  induction order with
  | nil =>
    intro _ i hi
    exact absurd hi (Nat.not_lt_zero i)
  | cons lvl rest ih =>
    intro hnd i hi a ha
    obtain ⟨h1, h2, hdisj⟩ := List.nodup_append.mp (by simpa using hnd)
    cases i with
    | zero =>
      have hc : lvl.contains a = true := by simpa using ha
      simp only [levelIdx, List.findIdx_cons]
      rw [hc]
      rfl
    | succ i2 =>
      have hrest : a ∈ rest.get ⟨i2, Nat.lt_of_succ_lt_succ hi⟩ := ha
      have hfl : a ∈ rest.flatten :=
        List.mem_flatten.mpr ⟨_, List.get_mem rest _ (Nat.lt_of_succ_lt_succ hi), hrest⟩
      have hnl : a ∉ lvl := fun hmem => hdisj hmem hfl
      have hc : lvl.contains a = false := by simpa using hnl
      have hih := ih h2 (Nat.lt_of_succ_lt_succ hi) hrest
      rw [levelIdx] at hih
      simp only [levelIdx, List.findIdx_cons]
      rw [hc]
      simp only [cond_false]
      rw [hih]

/-! ### Graph-level corollaries -/

theorem calculate_execution_order_eq (nodes : List (String × DependencyNode)) :
    calculate_execution_order nodes =
      calcOrderGo (nodes.map (fun p => (p.1, p.2.dependencies))).length
        (nodes.map (fun p => (p.1, p.2.dependencies))) [] := rfl

theorem extract_dependencies_eq_error {sc : Scenario} {e : String}
    (hcall : calculate_execution_order (buildGraphParts sc).1 = Except.error e) :
    extract_dependencies sc = Except.error e := by
  simp [extract_dependencies, hcall]

theorem extract_dependencies_eq_ok {sc : Scenario} {order : List (List String)}
    (hcall : calculate_execution_order (buildGraphParts sc).1 = Except.ok order) :
    extract_dependencies sc =
      Except.ok ⟨(buildGraphParts sc).1, (buildGraphParts sc).2, order⟩ := by
  simp [extract_dependencies, hcall]

theorem extract_dependencies_ok {sc : Scenario} {g : DependencyGraph}
    (h : extract_dependencies sc = Except.ok g) :
    g.nodes = (buildGraphParts sc).1 ∧ g.edges = (buildGraphParts sc).2 ∧
    calculate_execution_order (buildGraphParts sc).1 =
      Except.ok g.execution_order := by
  cases hcall : calculate_execution_order (buildGraphParts sc).1 with
  | error e =>
    rw [extract_dependencies_eq_error hcall] at h
    cases h
  | ok order =>
    rw [extract_dependencies_eq_ok hcall] at h
    injection h with h2
    rw [← h2]
    exact ⟨rfl, rfl, rfl⟩

theorem graph_keys_eq_names {sc : Scenario}
    (hnd : (sc.steps.map Step.name).Nodup) :
    (buildGraphParts sc).1.map Prod.fst = sc.steps.map Step.name := by
  rw [buildGraphParts_nodes_of_nodup sc hnd]
  simp [List.map_map, Function.comp]

theorem remaining_keys_eq (sc : Scenario) :
    ((buildGraphParts sc).1.map (fun p => (p.1, p.2.dependencies))).map Prod.fst =
      (buildGraphParts sc).1.map Prod.fst := by
  simp [List.map_map, Function.comp]

theorem remaining_of_nodup {sc : Scenario}
    (hnd : (sc.steps.map Step.name).Nodup) :
    (buildGraphParts sc).1.map (fun p => (p.1, p.2.dependencies)) =
      sc.steps.map (fun st => (st.name, all_deps st)) := by
  rw [buildGraphParts_nodes_of_nodup sc hnd]
  simp [List.map_map, Function.comp, mkNode]

theorem mem_edges_iff {sc : Scenario} {a b : String} :
    (a, b) ∈ (buildGraphParts sc).2 ↔
      ∃ st ∈ sc.steps, st.name = b ∧ a ∈ all_deps st := by
  rw [buildGraphParts_edges, List.mem_flatMap]
  constructor
  · rintro ⟨st, hst, hmem⟩
    obtain ⟨dep, hdep, heq⟩ := List.mem_map.mp hmem
    injection heq with h1 h2
    exact ⟨st, hst, h2, h1 ▸ hdep⟩
  · rintro ⟨st, hst, hb, ha⟩
    exact ⟨st, hst, List.mem_map.mpr ⟨a, ha, by rw [hb]⟩⟩

/-! ### Concrete fixtures -/

/-- Cycle example of the spec: step `A` references `steps.B.outputs.v`. -/
def stepCycA : Step :=
  { name := "A", tool := "t",
    params := [("p", PValue.vStr "\x7b\x7b steps.B.outputs.v \x7d\x7d")] }

/-- Cycle example of the spec: step `B` references `steps.A.outputs.v`. -/
def stepCycB : Step :=
  { name := "B", tool := "t",
    params := [("p", PValue.vStr "\x7b\x7b steps.A.outputs.v \x7d\x7d")] }

/-- Cycle example scenario of the spec. -/
def cycScenario : Scenario := { name := "cyc", steps := [stepCycA, stepCycB] }

/-- Linear chain example of the spec, first step. -/
def chainStep1 : Step := { name := "s1", tool := "t" }

/-- Linear chain example, second step: references `steps.s1.outputs.r`. -/
def chainStep2 : Step :=
  { name := "s2", tool := "t",
    params := [("in", PValue.vStr "\x7b\x7b steps.s1.outputs.r \x7d\x7d")] }

/-- Linear chain example, third step: references `steps.s2.outputs.r`. -/
def chainStep3 : Step :=
  { name := "s3", tool := "t",
    params := [("in", PValue.vStr "\x7b\x7b steps.s2.outputs.r \x7d\x7d")] }

/-- Linear chain example of the spec: `s1`, `s2` (refs `s1`), `s3` (refs
`s2`). -/
def chainScenario : Scenario :=
  { name := "chain", steps := [chainStep1, chainStep2, chainStep3] }

/-- The dependency graph the resolver computes for `chainScenario`. -/
def chainGraph : DependencyGraph :=
  { nodes :=
      [("s1", ⟨"s1", "t", none, []⟩),
       ("s2", ⟨"s2", "t", none, ["s1"]⟩),
       ("s3", ⟨"s3", "t", none, ["s2"]⟩)],
    edges := [("s1", "s2"), ("s2", "s3")],
    execution_order := [["s1"], ["s2"], ["s3"]] }

/-- Missing-reference example: step `x` declares a dependency on the
nonexistent step `ghost`. -/
def ghostStep : Step := { name := "x", tool := "t", depends_on := some ["ghost"] }

/-- Scenario holding only `ghostStep`. -/
def ghostScenario : Scenario := { name := "g", steps := [ghostStep] }

/-- For a duplicate-name-free scenario whose extraction succeeds, the
concatenated execution order is a permutation of the step-name list. -/
theorem exec_order_perm {sc : Scenario}
    (hnd : (sc.steps.map Step.name).Nodup) {g : DependencyGraph}
    (hg : extract_dependencies sc = Except.ok g) :
    g.execution_order.flatten.Perm (sc.steps.map Step.name) := by
  obtain ⟨hgn, hge, hord⟩ := extract_dependencies_ok hg
  rw [calculate_execution_order_eq] at hord
  have hkeys : ((buildGraphParts sc).1.map
      (fun p => (p.1, p.2.dependencies))).map Prod.fst = sc.steps.map Step.name := by
    rw [remaining_keys_eq, graph_keys_eq_names hnd]
  have hnd2 : (((buildGraphParts sc).1.map
      (fun p => (p.1, p.2.dependencies))).map Prod.fst).Nodup := by
    rw [hkeys]
    exact hnd
  have hperm := calcOrderGo_perm _ _ _ hnd2 hord
  rw [hkeys] at hperm
  exact hperm

/-- For a duplicate-name-free scenario whose extraction succeeds, a
dependency of a step is leveled strictly before that step. -/
theorem dep_level_lt {sc : Scenario}
    (hnd : (sc.steps.map Step.name).Nodup) {g : DependencyGraph}
    (hg : extract_dependencies sc = Except.ok g)
    {st : Step} (hst : st ∈ sc.steps) {a : String} (ha : a ∈ all_deps st) :
    levelIdx g.execution_order a < levelIdx g.execution_order st.name := by
  obtain ⟨hgn, hge, hord⟩ := extract_dependencies_ok hg
  rw [calculate_execution_order_eq] at hord
  have hkeys : ((buildGraphParts sc).1.map
      (fun p => (p.1, p.2.dependencies))).map Prod.fst = sc.steps.map Step.name := by
    rw [remaining_keys_eq, graph_keys_eq_names hnd]
  have hnd2 : (((buildGraphParts sc).1.map
      (fun p => (p.1, p.2.dependencies))).map Prod.fst).Nodup := by
    rw [hkeys]
    exact hnd
  have hperm := calcOrderGo_perm _ _ _ hnd2 hord
  rw [hkeys] at hperm
  have hflnd : g.execution_order.flatten.Nodup := hperm.symm.nodup hnd
  have hentry : (st.name, all_deps st) ∈ (buildGraphParts sc).1.map
      (fun p => (p.1, p.2.dependencies)) := by
    rw [remaining_of_nodup hnd]
    exact List.mem_map.mpr ⟨st, hst, rfl⟩
  obtain ⟨i, j, hij, hi, hj, hai, hbj⟩ :=
    calcOrderGo_dep_lt _ _ _ hnd2 hord hentry ha (by simp)
  rw [levelIdx_eq hflnd hi hai, levelIdx_eq hflnd hj hbj]
  exact hij

/-- Claim C1: for every scenario step list without circular dependencies
(leveling succeeded), the execution order partitions the full step-name
set — its concatenation is a permutation of the (duplicate-free) step-name
list — and every dependency edge `(a, b)` of the graph has the level index
of `a` strictly below the level index of `b`. -/
theorem claim_C1_leveling_partitions_and_respects_edges {sc : Scenario}
    (hnd : (sc.steps.map Step.name).Nodup) {g : DependencyGraph}
    (hg : extract_dependencies sc = Except.ok g) :
    g.execution_order.flatten.Perm (sc.steps.map Step.name) ∧
    ∀ a b, (a, b) ∈ g.edges →
      levelIdx g.execution_order a < levelIdx g.execution_order b := by
  refine ⟨exec_order_perm hnd hg, ?_⟩
  intro a b hab
  obtain ⟨_, hge, _⟩ := extract_dependencies_ok hg
  rw [hge] at hab
  obtain ⟨st, hst, hb, ha⟩ := mem_edges_iff.mp hab
  rw [← hb]
  exact dep_level_lt hnd hg hst ha

/-- Witness for C1 at the spec's linear-chain example. -/
theorem claim_C1_witness :
    chainGraph.execution_order.flatten.Perm (chainScenario.steps.map Step.name) ∧
    ∀ a b, (a, b) ∈ chainGraph.edges →
      levelIdx chainGraph.execution_order a < levelIdx chainGraph.execution_order b :=
  claim_C1_leveling_partitions_and_respects_edges (by decide) rfl

/-- Claim C2: whenever an iteration of leveling finds no entry with an
empty unresolved-dependency set while entries remain, the leveler fails
with the circular-dependency error naming exactly the remaining step set;
and on the spec's mutual-reference example (step `A` references
`steps.B.outputs.v` and step `B` references `steps.A.outputs.v`),
extraction raises an error that names both `A` and `B`. -/
theorem claim_C2_circular_dependency_error :
    (∀ (fuel : Nat) (r : List (String × List String)) (processed : List String),
      r.length ≤ fuel → r ≠ [] → (∀ p ∈ r, p.2 ≠ []) →
      calcOrderGo fuel r processed =
        Except.error (circularMsg (r.map Prod.fst))) ∧
    extract_dependencies cycScenario = Except.error (circularMsg ["A", "B"]) := by
  constructor
  · intro fuel r processed hlen hne hdeps
    exact calcOrderGo_stuck fuel r processed hlen hne hdeps
  · rfl

/-- Witness for C2: a single self-blocked entry makes the very next
iteration fail with the error naming it. -/
theorem claim_C2_witness :
    calcOrderGo 1 [("A", ["B"])] [] = Except.error (circularMsg ["A"]) :=
  claim_C2_circular_dependency_error.1 1 [("A", ["B"])] []
    (by decide) (by decide) (by decide)

/-- Claim C9 (implicit): `extract_dependencies` performs no
undeclared-dependency check.  A step whose dependency set names a
nonexistent step never resolves, and the circular-dependency error is
raised naming the blocked step — even though, as the `ghost` example shows
(its only edge is `("ghost", "x")`), no cycle exists. -/
theorem claim_C9_dangling_dependency_reported_as_circular :
    (∀ (sc : Scenario) (st : Step) (d : String),
      (sc.steps.map Step.name).Nodup → st ∈ sc.steps → d ∈ all_deps st →
      d ∉ sc.steps.map Step.name →
      ∃ l, extract_dependencies sc = Except.error (circularMsg l) ∧
        st.name ∈ l) ∧
    (extract_dependencies ghostScenario = Except.error (circularMsg ["x"]) ∧
      (buildGraphParts ghostScenario).2 = [("ghost", "x")]) := by
  constructor
  · intro sc st d hnd hst hd hdk
    have hentry : (st.name, all_deps st) ∈ (buildGraphParts sc).1.map
        (fun p => (p.1, p.2.dependencies)) := by
      rw [remaining_of_nodup hnd]
      exact List.mem_map.mpr ⟨st, hst, rfl⟩
    have hkeys : ((buildGraphParts sc).1.map
        (fun p => (p.1, p.2.dependencies))).map Prod.fst =
        sc.steps.map Step.name := by
      rw [remaining_keys_eq, graph_keys_eq_names hnd]
    have hnd2 : (((buildGraphParts sc).1.map
        (fun p => (p.1, p.2.dependencies))).map Prod.fst).Nodup := by
      rw [hkeys]
      exact hnd
    have hdk2 : d ∉ ((buildGraphParts sc).1.map
        (fun p => (p.1, p.2.dependencies))).map Prod.fst := by
      rw [hkeys]
      exact hdk
    obtain ⟨l, herr, hmem⟩ := calcOrderGo_blocked _ _ []
      (Nat.le_refl _) hnd2 hentry hd hdk2 (by simp)
    refine ⟨l, ?_, hmem⟩
    apply extract_dependencies_eq_error
    rw [calculate_execution_order_eq]
    exact herr
  · exact ⟨rfl, rfl⟩

/-- Witness for C9 at the `ghost` example. -/
theorem claim_C9_witness :
    extract_dependencies ghostScenario = Except.error (circularMsg ["x"]) := by
  obtain ⟨l, herr, hmem⟩ :=
    claim_C9_dangling_dependency_reported_as_circular.1 ghostScenario ghostStep
      "ghost" (by decide) (List.Mem.head _) (by decide) (by decide)
  have h2 : Except.error (circularMsg l) =
      (Except.error (circularMsg ["x"]) : Except String DependencyGraph) := by
    rw [← herr]
    rfl
  exact herr.trans h2

/-- Counterexample fixture for C3: the only reference sits inside a list
value, which the source scanner never enters. -/
def cexListStep : Step :=
  { name := "S", tool := "t",
    params := [("p", PValue.vList [PValue.vStr "\x7b\x7b steps.a.outputs.v \x7d\x7d"])] }

/-- Counterexample fixture for C8: step `S` references `steps.X.outputs.y`
only inside a list parameter value. -/
def listRefScenario : Scenario :=
  { name := "lr",
    steps :=
      [{ name := "X", tool := "t" },
       { name := "S", tool := "t",
         params :=
           [("p", PValue.vList [PValue.vStr "\x7b\x7b steps.X.outputs.y \x7d\x7d"])] }] }

/-- The graph the resolver computes for `listRefScenario`: no dependency is
found, both steps land in level 0. -/
def listRefGraph : DependencyGraph :=
  { nodes :=
      [("X", ⟨"X", "t", none, []⟩),
       ("S", ⟨"S", "t", none, []⟩)],
    edges := [],
    execution_order := [["X", "S"]] }

/-- Counterexample for C3: the claim says the scanner walks the whole
parameter tree, so on `cexListStep` it would return `{a}` (the full walk
`spec_scan_step` does); the source scanner inspects only top-level string
values and returns the empty set. -/
theorem claim_C3_counterexample :
    extract_template_dependencies cexListStep = [] ∧
    spec_scan_step 2 cexListStep = ["a"] :=
  ⟨rfl, rfl⟩

/-- Claim C3 as amended: the scanner inspects only the step's top-level
parameter values; each string-valued parameter contributes the identifiers
its scanner pattern captures, list/map/non-string values contribute
nothing, the result is duplicate-free, and it is empty when no parameter
is a string containing the pattern. -/
theorem claim_C3_scanner_characterization (step : Step) :
    (extract_template_dependencies step).Nodup ∧
    ∀ d, d ∈ extract_template_dependencies step ↔
      ∃ kv ∈ step.params, ∃ s, kv.2 = PValue.vStr s ∧ d ∈ findMatches s :=
  ⟨nodup_extract_template_dependencies step,
   fun _ => mem_extract_template_dependencies⟩

/-- Counterexample for C8: in `listRefScenario` a parameter of `S` contains
the template reference `steps.X.outputs.y` (inside a list), yet both steps
are leveled together at level 0 — the level of `S` is not strictly greater
than the level of `X`. -/
theorem claim_C8_counterexample :
    spec_contains_ref "X" 2
      (PValue.vList [PValue.vStr "\x7b\x7b steps.X.outputs.y \x7d\x7d"]) = true ∧
    extract_dependencies listRefScenario = Except.ok listRefGraph ∧
    levelIdx listRefGraph.execution_order "S" = 0 ∧
    levelIdx listRefGraph.execution_order "X" = 0 :=
  ⟨rfl, rfl, rfl, rfl⟩

/-- Claim C8 as amended: restricted to references the scanner sees — a
top-level string parameter of `S` whose pattern capture yields `X` — the
level of `S` is strictly greater than the level of `X` whenever extraction
succeeds on a duplicate-name-free scenario. -/
theorem claim_C8_string_param_reference_levels {sc : Scenario}
    (hnd : (sc.steps.map Step.name).Nodup) {S : Step} (hS : S ∈ sc.steps)
    {k s X : String} (hks : (k, PValue.vStr s) ∈ S.params)
    (hX : X ∈ findMatches s) {g : DependencyGraph}
    (hg : extract_dependencies sc = Except.ok g) :
    levelIdx g.execution_order X < levelIdx g.execution_order S.name := by
  have hX2 : X ∈ all_deps S :=
    mem_all_deps.mpr (Or.inr (mem_extract_template_dependencies.mpr
      ⟨(k, PValue.vStr s), hks, s, rfl, hX⟩))
  exact dep_level_lt hnd hg hS hX2

/-- Witness for the amended C8 at the chain example: `s2` references
`steps.s1.outputs.r` in a top-level string parameter and is leveled after
`s1`. -/
theorem claim_C8_witness :
    levelIdx chainGraph.execution_order "s1" <
      levelIdx chainGraph.execution_order chainStep2.name :=
  @claim_C8_string_param_reference_levels chainScenario (by decide) chainStep2
    (List.Mem.tail _ (List.Mem.head _)) "in"
    "\x7b\x7b steps.s1.outputs.r \x7d\x7d" "s1" (List.Mem.head _) (by decide)
    chainGraph rfl

/-- Count of an element in a duplicate-free list, for any lawful `BEq`. -/
theorem count_eq_one_of_mem_nodup {α : Type} [BEq α] [LawfulBEq α]
    {l : List α} (hnd : l.Nodup) {a : α} (ha : a ∈ l) : l.count a = 1 := by
  induction l with
  | nil => cases ha
  | cons b l ih =>
    obtain ⟨hb, hl⟩ := List.nodup_cons.mp hnd
    rcases List.mem_cons.mp ha with rfl | ha2
    · simp [List.count_cons, List.count_eq_zero.mpr hb]
    · have hab : ¬ a = b := fun h => hb (h ▸ ha2)
      simp [List.count_cons, ih hl ha2, hab]

/-- Counting a pair `(x, n)` in a list of pairs that all share the second
component `n` counts `x` in the first components. -/
theorem count_map_pair (n : String) (l : List String) (x : String) :
    (l.map (fun dep => (dep, n))).count (x, n) = l.count x := by
  induction l with
  | nil => rfl
  | cons a l ih =>
    simp only [List.map_cons, List.count_cons, ih]
    by_cases hax : x = a
    · simp [hax]
    · have h2 : ¬ ((x, n) = (a, n)) := fun h => hax (by injection h)
      simp [hax, h2]

/-- Edge-count helper: in the concatenated edge list, a dependency pair
`(d, st.name)` of a step `st` occurs exactly once when step names are
duplicate-free. -/
theorem count_edge_flatMap :
    ∀ (steps : List Step), (steps.map Step.name).Nodup →
      ∀ st ∈ steps, ∀ d ∈ all_deps st,
        (steps.flatMap
          (fun step => (all_deps step).map (fun dep => (dep, step.name)))).count
          (d, st.name) = 1 := by
  intro steps
  induction steps with
  | nil =>
    intro _ st hst
    cases hst
  | cons s0 rest ih =>
    intro hnd st hst d hd
    have hnd2 : (s0.name :: rest.map Step.name).Nodup := by simpa using hnd
    obtain ⟨h1, h2⟩ := List.nodup_cons.mp hnd2
    simp only [List.flatMap_cons, List.count_append]
    rcases List.mem_cons.mp hst with rfl | hst2
    · rw [count_map_pair st.name (all_deps st) d,
        count_eq_one_of_mem_nodup (nodup_all_deps st) hd]
      have hc2 : (rest.flatMap
          (fun step => (all_deps step).map (fun dep => (dep, step.name)))).count
          (d, st.name) = 0 := by
        rw [List.count_eq_zero]
        intro hmem
        obtain ⟨step, hstep, hmem2⟩ := List.mem_flatMap.mp hmem
        obtain ⟨dep, _, heq⟩ := List.mem_map.mp hmem2
        injection heq with _ hname
        exact h1 (hname ▸ List.mem_map.mpr ⟨step, hstep, rfl⟩)
      rw [hc2]
    · have hc1 : ((all_deps s0).map (fun dep => (dep, s0.name))).count (d, st.name) = 0 := by
        rw [List.count_eq_zero]
        intro hmem
        obtain ⟨dep, _, heq⟩ := List.mem_map.mp hmem
        injection heq with _ hname
        exact h1 (hname ▸ List.mem_map.mpr ⟨st, hst2, rfl⟩)
      rw [hc1, ih h2 st hst2 d hd]

/-- Claim C6: for every step of a duplicate-name-free scenario, the graph
node records exactly the union of the explicit dependency list and the
scanner-derived implicit references (duplicate-free), and each distinct
dependency yields exactly one `(dependency, dependent)` edge. -/
theorem claim_C6_node_union_and_single_edge {sc : Scenario}
    (hnd : (sc.steps.map Step.name).Nodup) {st : Step} (hst : st ∈ sc.steps) :
    ((st.name, mkNode st) ∈ (buildGraphParts sc).1 ∧
      (mkNode st).dependencies.Nodup ∧
      ∀ d, d ∈ (mkNode st).dependencies ↔
        d ∈ st.depends_on.getD [] ∨ d ∈ extract_template_dependencies st) ∧
    ∀ d ∈ (mkNode st).dependencies,
      (buildGraphParts sc).2.count (d, st.name) = 1 := by
  constructor
  · refine ⟨?_, nodup_all_deps st, fun d => mem_all_deps⟩
    rw [buildGraphParts_nodes_of_nodup sc hnd]
    exact List.mem_map.mpr ⟨st, hst, rfl⟩
  · intro d hd
    rw [buildGraphParts_edges]
    exact count_edge_flatMap sc.steps hnd st hst d hd

/-- Fixture for the C6 witness: `v` names its dependency on `u` both
explicitly (`depends_on`) and implicitly (template reference). -/
def dupStepU : Step := { name := "u", tool := "t" }

/-- Fixture for the C6 witness, the doubly-declaring step. -/
def dupStepV : Step :=
  { name := "v", tool := "t", depends_on := some ["u"],
    params := [("p", PValue.vStr "\x7b\x7b steps.u.outputs.o \x7d\x7d")] }

/-- Fixture scenario for the C6 witness. -/
def dupDepScenario : Scenario := { name := "dup", steps := [dupStepU, dupStepV] }

/-- Witness for C6: the dependency declared both ways yields exactly one
edge. -/
theorem claim_C6_witness :
    (buildGraphParts dupDepScenario).2.count ("u", dupStepV.name) = 1 :=
  (claim_C6_node_union_and_single_edge (by decide)
    (List.Mem.tail _ (List.Mem.head _))).2 "u" (by decide)

/-- Claim C7: extraction is deterministic — the same scenario value yields
the same graph — and, when step names are duplicate-free, every level of
the execution order lists its step names in the insertion order of the
step list (it is a sublist of the step-name list). -/
theorem claim_C7_deterministic_and_insertion_ordered (sc : Scenario) :
    extract_dependencies sc = extract_dependencies sc ∧
    ((sc.steps.map Step.name).Nodup → ∀ g, extract_dependencies sc = Except.ok g →
      ∀ lvl ∈ g.execution_order, lvl.Sublist (sc.steps.map Step.name)) := by
  refine ⟨rfl, ?_⟩
  intro hnd g hg lvl hlvl
  obtain ⟨_, _, hord⟩ := extract_dependencies_ok hg
  rw [calculate_execution_order_eq] at hord
  have hsub := calcOrderGo_level_sublist _ _ _ hord lvl hlvl
  rw [remaining_keys_eq, graph_keys_eq_names hnd] at hsub
  exact hsub

/-- Witness for C7 at the chain example: each level respects step-list
order. -/
theorem claim_C7_witness :
    ∀ lvl ∈ chainGraph.execution_order,
      lvl.Sublist (chainScenario.steps.map Step.name) :=
  (claim_C7_deterministic_and_insertion_ordered chainScenario).2 (by decide)
    chainGraph rfl

/-- The two missing-reference error batches one step contributes in
`validate_dependencies` (explicit `depends_on` first, then template
references). -/
def stepMissing (names : List String) (step : Step) : List String :=
  ((step.depends_on.getD []).filter (fun d => !(names.contains d))).map
    (missingMsg step.name) ++
  ((extract_template_dependencies step).filter (fun d => !(names.contains d))).map
    (missingMsg step.name)

theorem vm_foldl (names : List String) :
    ∀ (steps : List Step) (acc : List String),
      steps.foldl
        (fun errors step =>
          (errors ++
            ((step.depends_on.getD []).filter
              (fun d => !(names.contains d))).map (missingMsg step.name)) ++
          ((extract_template_dependencies step).filter
              (fun d => !(names.contains d))).map (missingMsg step.name)) acc =
      acc ++ steps.flatMap (stepMissing names) := by
  intro steps
  induction steps with
  | nil =>
    intro acc
    simp
  | cons s0 rest ih =>
    intro acc
    rw [List.foldl_cons, ih]
    simp [stepMissing, List.append_assoc]

theorem validateMissing_eq (sc : Scenario) :
    validateMissing sc = sc.steps.flatMap (stepMissing (sc.steps.map Step.name)) := by
  have h := vm_foldl (sc.steps.map Step.name) sc.steps []
  simpa [validateMissing] using h

theorem validate_eq_missing_of_ne {sc : Scenario} (h : validateMissing sc ≠ []) :
    validate_dependencies sc = validateMissing sc := by
  have hne : ¬((validateMissing sc).isEmpty = true) := by
    simpa [List.isEmpty_iff] using h
  simp [validate_dependencies, hne]

theorem head?_data_append (a b : String) (c : Char)
    (h : a.data.head? = some c) : (a ++ b).data.head? = some c := by
  rw [String.data_append]
  cases ha : a.data with
  | nil =>
    rw [ha] at h
    cases h
  | cons x xs =>
    rw [ha] at h
    simpa using h

theorem missingMsg_ne_circularMsg (s d l2 : String) (l : List String) :
    ("Step \x27" ++ s ++ l2 ++ d ++ "\x27") ≠ circularMsg l := by
  intro h
  have h1 : ("Step \x27" ++ s ++ l2 ++ d ++ "\x27").data.head? = some 'S' :=
    head?_data_append _ _ _ (head?_data_append _ _ _
      (head?_data_append _ _ _ (head?_data_append _ _ _ rfl)))
  have h2 : (circularMsg l).data.head? = some 'C' :=
    head?_data_append _ _ _ rfl
  rw [h, h2] at h1
  cases h1

theorem run_case_scenario_validation_failure_eq (sc : Scenario)
    (tools : List String) (renderF : Step → Ctx → List (String × PValue))
    (execF : Step → List (String × PValue) → ExecResult)
    (h : validate_dependencies sc ≠ []) :
    run_case_scenario sc tools renderF execF =
      ⟨⟨false, "Scenario dependency validation failed:" ::
        validate_dependencies sc⟩, [], []⟩ := by
  have hne : ¬((validate_dependencies sc).isEmpty = true) := by
    simpa [List.isEmpty_iff] using h
  simp [run_case_scenario, hne]

/-- Counterexample fixture for C4: the only reference to the nonexistent
step `ghost` sits inside a list parameter value, which the source scanner
never enters. -/
def nestedGhostStep : Step :=
  { name := "s", tool := "t",
    params :=
      [("p", PValue.vList [PValue.vStr "\x7b\x7b steps.ghost.outputs.v \x7d\x7d"])] }

/-- Scenario holding only `nestedGhostStep`. -/
def nestedGhostScenario : Scenario :=
  { name := "ng", steps := [nestedGhostStep] }

/-- Counterexample for C4: the claim covers every template-placeholder
reference, but in `nestedGhostScenario` the step references the
nonexistent step `ghost` only inside a list parameter (the spec-sense
recursive walk sees it), validation returns no diagnostic at all, and the
run executes the step and succeeds — nothing is detected before
execution. -/
theorem claim_C4_counterexample :
    spec_contains_ref "ghost" 2
      (PValue.vList [PValue.vStr "\x7b\x7b steps.ghost.outputs.v \x7d\x7d"]) = true ∧
    spec_scan_step 2 nestedGhostStep = ["ghost"] ∧
    nestedGhostScenario.steps.map Step.name = ["s"] ∧
    validate_dependencies nestedGhostScenario = [] ∧
    (run_case_scenario nestedGhostScenario ["t"] (fun _ _ => [])
      (fun _ _ => ⟨0, [], "", false⟩)).executed.map Prod.fst = ["s"] ∧
    (run_case_scenario nestedGhostScenario ["t"] (fun _ _ => [])
      (fun _ _ => ⟨0, [], "", false⟩)).result.success = true :=
  ⟨rfl, rfl, rfl, rfl, rfl, rfl⟩

/-- Claim C4 as amended: when any step references a nonexistent step name
explicitly via `depends_on` or via a scanner-visible template placeholder
(one the top-level-string scanner captures), dependency validation reports
the diagnostic naming the offending step and the missing target, every
reported message is of that missing-reference form (in particular no
circular-dependency message is reported), and the scenario run executes no
step and fails. -/
theorem claim_C4_missing_reference_diagnostics {sc : Scenario} {st : Step}
    {d : String} (hst : st ∈ sc.steps)
    (hd : d ∈ st.depends_on.getD [] ∨ d ∈ extract_template_dependencies st)
    (hdk : d ∉ sc.steps.map Step.name) :
    missingMsg st.name d ∈ validate_dependencies sc ∧
    (∀ m ∈ validate_dependencies sc, ∃ s2 d2, m = missingMsg s2 d2) ∧
    (∀ l, circularMsg l ∉ validate_dependencies sc) ∧
    ∀ (tools : List String) (renderF : Step → Ctx → List (String × PValue))
      (execF : Step → List (String × PValue) → ExecResult),
      (run_case_scenario sc tools renderF execF).executed = [] ∧
      (run_case_scenario sc tools renderF execF).result.success = false := by
  have hmem : missingMsg st.name d ∈ validateMissing sc := by
    rw [validateMissing_eq]
    refine List.mem_flatMap.mpr ⟨st, hst, ?_⟩
    rcases hd with h | h
    · exact List.mem_append.mpr (Or.inl (List.mem_map.mpr
        ⟨d, List.mem_filter.mpr ⟨h, by simpa using hdk⟩, rfl⟩))
    · exact List.mem_append.mpr (Or.inr (List.mem_map.mpr
        ⟨d, List.mem_filter.mpr ⟨h, by simpa using hdk⟩, rfl⟩))
  have hne : validateMissing sc ≠ [] := List.ne_nil_of_mem hmem
  have hval : validate_dependencies sc = validateMissing sc :=
    validate_eq_missing_of_ne hne
  have hform : ∀ m ∈ validate_dependencies sc, ∃ s2 d2, m = missingMsg s2 d2 := by
    intro m hm
    rw [hval, validateMissing_eq] at hm
    obtain ⟨step, _, hm2⟩ := List.mem_flatMap.mp hm
    rcases List.mem_append.mp hm2 with h3 | h3
    · obtain ⟨d2, _, heq⟩ := List.mem_map.mp h3
      exact ⟨step.name, d2, heq.symm⟩
    · obtain ⟨d2, _, heq⟩ := List.mem_map.mp h3
      exact ⟨step.name, d2, heq.symm⟩
  refine ⟨hval ▸ hmem, hform, ?_, ?_⟩
  · intro l hl
    obtain ⟨s2, d2, heq⟩ := hform (circularMsg l) hl
    exact missingMsg_ne_circularMsg s2 d2 _ l heq.symm
  · intro tools renderF execF
    rw [run_case_scenario_validation_failure_eq sc tools renderF execF
      (by rw [hval]; exact hne)]
    exact ⟨rfl, rfl⟩

/-- Witness for C4 at the `ghost` example. -/
theorem claim_C4_witness :
    missingMsg ghostStep.name "ghost" ∈ validate_dependencies ghostScenario ∧
    (run_case_scenario ghostScenario [] (fun _ _ => [])
      (fun _ _ => ⟨0, [], "", false⟩)).executed = [] := by
  have h := @claim_C4_missing_reference_diagnostics ghostScenario ghostStep
    "ghost" (List.Mem.head _) (Or.inl (by decide)) (by decide)
  exact ⟨h.1, (h.2.2.2 [] (fun _ _ => []) (fun _ _ => ⟨0, [], "", false⟩)).1⟩

/-! ### Runner loop lemmas -/

theorem findStep_name {steps : List Step} {n : String} {st : Step}
    (h : findStep steps n = some st) : st.name = n := by
  have h2 := List.find?_some h
  simpa using h2

theorem findStep_mem {steps : List Step} {n : String} {st : Step}
    (h : findStep steps n = some st) : st ∈ steps :=
  List.mem_of_find?_eq_some h

theorem run_level_nil (sc : Scenario) (tools : List String)
    (renderF : Step → Ctx → List (String × PValue))
    (execF : Step → List (String × PValue) → ExecResult) (ctx : Ctx) :
    run_level sc tools renderF execF [] ctx = ⟨[], ctx, none⟩ := rfl

theorem run_level_cons_not_found (sc : Scenario) (tools : List String)
    (renderF : Step → Ctx → List (String × PValue))
    (execF : Step → List (String × PValue) → ExecResult)
    {n : String} (rest : List String) (ctx : Ctx)
    (hfs : findStep sc.steps n = none) :
    run_level sc tools renderF execF (n :: rest) ctx =
      ⟨[], ctx, some [stepNotFoundMsg sc n]⟩ := by
  simp [run_level, hfs]

theorem run_level_cons_no_tool (sc : Scenario) (tools : List String)
    (renderF : Step → Ctx → List (String × PValue))
    (execF : Step → List (String × PValue) → ExecResult)
    {n : String} (rest : List String) (ctx : Ctx) {step : Step}
    (hfs : findStep sc.steps n = some step)
    (hts : step.tool ∉ tools) :
    run_level sc tools renderF execF (n :: rest) ctx =
      ⟨[], ctx, some [toolNotFoundMsg step]⟩ := by
  simp [run_level, hfs, hts]

theorem run_level_cons_fatal (sc : Scenario) (tools : List String)
    (renderF : Step → Ctx → List (String × PValue))
    (execF : Step → List (String × PValue) → ExecResult)
    {n : String} (rest : List String) (ctx : Ctx) {step : Step}
    (hfs : findStep sc.steps n = some step)
    (hts : step.tool ∈ tools)
    (hfat : ¬(execF step (renderF step ctx)).returncode = 0 ∧
      step.continue_on_failure = false) :
    run_level sc tools renderF execF (n :: rest) ctx =
      ⟨[(step.name, execF step (renderF step ctx))],
       dictInsert ctx step.name (execF step (renderF step ctx)).outputs,
       some (failMsgs step (execF step (renderF step ctx)))⟩ := by
  simp [run_level, hfs, hts, hfat]

theorem run_level_cons_step (sc : Scenario) (tools : List String)
    (renderF : Step → Ctx → List (String × PValue))
    (execF : Step → List (String × PValue) → ExecResult)
    {n : String} (rest : List String) (ctx : Ctx) {step : Step}
    (hfs : findStep sc.steps n = some step)
    (hts : step.tool ∈ tools)
    (hfat : ¬(execF step (renderF step ctx)).returncode = 0 →
      step.continue_on_failure = true) :
    run_level sc tools renderF execF (n :: rest) ctx =
      ⟨(step.name, execF step (renderF step ctx)) ::
        (run_level sc tools renderF execF rest
          (dictInsert ctx step.name (execF step (renderF step ctx)).outputs)).executed,
       (run_level sc tools renderF execF rest
          (dictInsert ctx step.name (execF step (renderF step ctx)).outputs)).ctx,
       (run_level sc tools renderF execF rest
          (dictInsert ctx step.name (execF step (renderF step ctx)).outputs)).aborted⟩ := by
  have hC : ¬(¬(execF step (renderF step ctx)).returncode = 0 ∧
      step.continue_on_failure = false) := by
    rintro ⟨h1, h2⟩
    rw [hfat h1] at h2
    cases h2
  simp [run_level, hfs, hts, hC]

theorem run_level_ctx_mono (sc : Scenario) (tools : List String)
    (renderF : Step → Ctx → List (String × PValue))
    (execF : Step → List (String × PValue) → ExecResult) :
    ∀ (lvl : List String) (ctx : Ctx) {n : String} {o : List (String × String)},
      (n, o) ∈ ctx →
      n ∉ (run_level sc tools renderF execF lvl ctx).executed.map Prod.fst →
      (n, o) ∈ (run_level sc tools renderF execF lvl ctx).ctx := by
  intro lvl
  induction lvl with
  | nil =>
    intro ctx n o hctx _
    rw [run_level_nil]
    exact hctx
  | cons n0 rest ih =>
    intro ctx n o hctx hn
    cases hfs : findStep sc.steps n0 with
    | none =>
      rw [run_level_cons_not_found sc tools renderF execF rest ctx hfs]
      exact hctx
    | some step =>
      cases hts : tools.contains step.tool with
      | false =>
        rw [run_level_cons_no_tool sc tools renderF execF rest ctx hfs (by simpa using hts)]
        exact hctx
      | true =>
        cases hfat : ((execF step (renderF step ctx)).returncode != 0 &&
            !step.continue_on_failure) with
        | true =>
          rw [run_level_cons_fatal sc tools renderF execF rest ctx hfs (by simpa using hts) (by simpa using hfat)] at hn ⊢
          have hne : step.name ≠ n := by
            intro h
            exact hn (by simp [h])
          exact mem_dictInsert_of_ne hctx hne _
        | false =>
          rw [run_level_cons_step sc tools renderF execF rest ctx hfs (by simpa using hts) (by simpa using hfat)] at hn ⊢
          have hne : step.name ≠ n := by
            intro h
            exact hn (by simp [h])
          have hn2 : n ∉ (run_level sc tools renderF execF rest
              (dictInsert ctx step.name
                (execF step (renderF step ctx)).outputs)).executed.map Prod.fst := by
            intro hmem
            exact hn (by simp [hmem])
          exact ih _ (mem_dictInsert_of_ne hctx hne _) hn2

theorem run_level_commit (sc : Scenario) (tools : List String)
    (renderF : Step → Ctx → List (String × PValue))
    (execF : Step → List (String × PValue) → ExecResult) :
    ∀ (lvl : List String) (ctx : Ctx) {n : String} {r : ExecResult},
      (n, r) ∈ (run_level sc tools renderF execF lvl ctx).executed →
      ((run_level sc tools renderF execF lvl ctx).executed.map Prod.fst).Nodup →
      (n, r.outputs) ∈ (run_level sc tools renderF execF lvl ctx).ctx := by
  intro lvl
  induction lvl with
  | nil =>
    intro ctx n r hmem
    rw [run_level_nil] at hmem
    cases hmem
  | cons n0 rest ih =>
    intro ctx n r hmem hnd
    cases hfs : findStep sc.steps n0 with
    | none =>
      rw [run_level_cons_not_found sc tools renderF execF rest ctx hfs] at hmem
      cases hmem
    | some step =>
      cases hts : tools.contains step.tool with
      | false =>
        rw [run_level_cons_no_tool sc tools renderF execF rest ctx hfs (by simpa using hts)] at hmem
        cases hmem
      | true =>
        cases hfat : ((execF step (renderF step ctx)).returncode != 0 &&
            !step.continue_on_failure) with
        | true =>
          rw [run_level_cons_fatal sc tools renderF execF rest ctx hfs (by simpa using hts) (by simpa using hfat)] at hmem ⊢
          rcases List.mem_cons.mp hmem with heq | h2
          · injection heq with h3 h4
            subst h3
            subst h4
            exact mem_dictInsert_self ctx _ _
          · cases h2
        | false =>
          rw [run_level_cons_step sc tools renderF execF rest ctx hfs (by simpa using hts) (by simpa using hfat)] at hmem hnd ⊢
          have hnd2 : (step.name :: (run_level sc tools renderF execF rest
              (dictInsert ctx step.name
                (execF step (renderF step ctx)).outputs)).executed.map
              Prod.fst).Nodup := by
            simpa using hnd
          obtain ⟨hhead, htail⟩ := List.nodup_cons.mp hnd2
          rcases List.mem_cons.mp hmem with heq | h2
          · injection heq with h3 h4
            subst h3
            subst h4
            exact run_level_ctx_mono sc tools renderF execF rest _
              (mem_dictInsert_self ctx _ _) hhead
          · exact ih _ h2 htail

theorem run_level_names_prefix_of_level (sc : Scenario) (tools : List String)
    (renderF : Step → Ctx → List (String × PValue))
    (execF : Step → List (String × PValue) → ExecResult) :
    ∀ (lvl : List String) (ctx : Ctx),
      ((run_level sc tools renderF execF lvl ctx).executed.map Prod.fst).IsPrefix
        lvl := by
  intro lvl
  induction lvl with
  | nil =>
    intro ctx
    rw [run_level_nil]
    exact List.nil_prefix
  | cons n0 rest ih =>
    intro ctx
    cases hfs : findStep sc.steps n0 with
    | none =>
      rw [run_level_cons_not_found sc tools renderF execF rest ctx hfs]
      exact List.nil_prefix
    | some step =>
      have hname := findStep_name hfs
      cases hts : tools.contains step.tool with
      | false =>
        rw [run_level_cons_no_tool sc tools renderF execF rest ctx hfs (by simpa using hts)]
        exact List.nil_prefix
      | true =>
        cases hfat : ((execF step (renderF step ctx)).returncode != 0 &&
            !step.continue_on_failure) with
        | true =>
          rw [run_level_cons_fatal sc tools renderF execF rest ctx hfs (by simpa using hts) (by simpa using hfat)]
          refine ⟨rest, ?_⟩
          simp [hname]
        | false =>
          rw [run_level_cons_step sc tools renderF execF rest ctx hfs (by simpa using hts) (by simpa using hfat)]
          obtain ⟨t, ht⟩ := ih (dictInsert ctx step.name
            (execF step (renderF step ctx)).outputs)
          refine ⟨t, ?_⟩
          simp only [List.map_cons, List.cons_append]
          rw [ht, hname]

theorem run_level_complete_of_none (sc : Scenario) (tools : List String)
    (renderF : Step → Ctx → List (String × PValue))
    (execF : Step → List (String × PValue) → ExecResult) :
    ∀ (lvl : List String) (ctx : Ctx),
      (run_level sc tools renderF execF lvl ctx).aborted = none →
      (run_level sc tools renderF execF lvl ctx).executed.map Prod.fst = lvl := by
  intro lvl
  induction lvl with
  | nil =>
    intro ctx _
    rw [run_level_nil]
    rfl
  | cons n0 rest ih =>
    intro ctx hab
    cases hfs : findStep sc.steps n0 with
    | none =>
      rw [run_level_cons_not_found sc tools renderF execF rest ctx hfs] at hab
      cases hab
    | some step =>
      have hname := findStep_name hfs
      cases hts : tools.contains step.tool with
      | false =>
        rw [run_level_cons_no_tool sc tools renderF execF rest ctx hfs (by simpa using hts)] at hab
        cases hab
      | true =>
        cases hfat : ((execF step (renderF step ctx)).returncode != 0 &&
            !step.continue_on_failure) with
        | true =>
          rw [run_level_cons_fatal sc tools renderF execF rest ctx hfs (by simpa using hts) (by simpa using hfat)] at hab
          cases hab
        | false =>
          rw [run_level_cons_step sc tools renderF execF rest ctx hfs (by simpa using hts) (by simpa using hfat)] at hab ⊢
          simp only [List.map_cons]
          rw [ih _ hab, hname]

theorem run_levels_nil (sc : Scenario) (tools : List String)
    (renderF : Step → Ctx → List (String × PValue))
    (execF : Step → List (String × PValue) → ExecResult) (ctx : Ctx) :
    run_levels sc tools renderF execF [] ctx = ⟨[], ctx, none⟩ := rfl

theorem run_levels_cons_abort (sc : Scenario) (tools : List String)
    (renderF : Step → Ctx → List (String × PValue))
    (execF : Step → List (String × PValue) → ExecResult)
    {lvl : List String} (rest : List (List String)) (ctx : Ctx)
    {errs : List String}
    (hab : (run_level sc tools renderF execF lvl ctx).aborted = some errs) :
    run_levels sc tools renderF execF (lvl :: rest) ctx =
      run_level sc tools renderF execF lvl ctx := by
  simp [run_levels, hab]

theorem run_levels_cons_go (sc : Scenario) (tools : List String)
    (renderF : Step → Ctx → List (String × PValue))
    (execF : Step → List (String × PValue) → ExecResult)
    {lvl : List String} (rest : List (List String)) (ctx : Ctx)
    (hab : (run_level sc tools renderF execF lvl ctx).aborted = none) :
    run_levels sc tools renderF execF (lvl :: rest) ctx =
      ⟨(run_level sc tools renderF execF lvl ctx).executed ++
        (run_levels sc tools renderF execF rest
          (run_level sc tools renderF execF lvl ctx).ctx).executed,
       (run_levels sc tools renderF execF rest
          (run_level sc tools renderF execF lvl ctx).ctx).ctx,
       (run_levels sc tools renderF execF rest
          (run_level sc tools renderF execF lvl ctx).ctx).aborted⟩ := by
  simp [run_levels, hab]

theorem run_levels_ctx_mono (sc : Scenario) (tools : List String)
    (renderF : Step → Ctx → List (String × PValue))
    (execF : Step → List (String × PValue) → ExecResult) :
    ∀ (pending : List (List String)) (ctx : Ctx) {n : String}
      {o : List (String × String)},
      (n, o) ∈ ctx →
      n ∉ (run_levels sc tools renderF execF pending ctx).executed.map Prod.fst →
      (n, o) ∈ (run_levels sc tools renderF execF pending ctx).ctx := by
  intro pending
  induction pending with
  | nil =>
    intro ctx n o hctx _
    rw [run_levels_nil]
    exact hctx
  | cons lvl rest ih =>
    intro ctx n o hctx hn
    cases hab : (run_level sc tools renderF execF lvl ctx).aborted with
    | some errs =>
      rw [run_levels_cons_abort sc tools renderF execF rest ctx hab] at hn ⊢
      exact run_level_ctx_mono sc tools renderF execF lvl ctx hctx hn
    | none =>
      rw [run_levels_cons_go sc tools renderF execF rest ctx hab] at hn ⊢
      have hn1 : n ∉ (run_level sc tools renderF execF lvl ctx).executed.map
          Prod.fst := by
        intro hmem
        exact hn (by simp [hmem])
      have hn2 : n ∉ (run_levels sc tools renderF execF rest
          (run_level sc tools renderF execF lvl ctx).ctx).executed.map Prod.fst := by
        intro hmem
        exact hn (by simp [hmem])
      exact ih _ (run_level_ctx_mono sc tools renderF execF lvl ctx hctx hn1) hn2

theorem run_levels_commit (sc : Scenario) (tools : List String)
    (renderF : Step → Ctx → List (String × PValue))
    (execF : Step → List (String × PValue) → ExecResult) :
    ∀ (pending : List (List String)) (ctx : Ctx) {n : String} {r : ExecResult},
      (n, r) ∈ (run_levels sc tools renderF execF pending ctx).executed →
      ((run_levels sc tools renderF execF pending ctx).executed.map Prod.fst).Nodup →
      (n, r.outputs) ∈ (run_levels sc tools renderF execF pending ctx).ctx := by
  intro pending
  induction pending with
  | nil =>
    intro ctx n r hmem
    rw [run_levels_nil] at hmem
    cases hmem
  | cons lvl rest ih =>
    intro ctx n r hmem hnd
    cases hab : (run_level sc tools renderF execF lvl ctx).aborted with
    | some errs =>
      rw [run_levels_cons_abort sc tools renderF execF rest ctx hab] at hmem hnd ⊢
      exact run_level_commit sc tools renderF execF lvl ctx hmem hnd
    | none =>
      rw [run_levels_cons_go sc tools renderF execF rest ctx hab] at hmem hnd ⊢
      rw [List.map_append] at hnd
      obtain ⟨hnd1, hnd2, hdisj⟩ := List.nodup_append.mp hnd
      rcases List.mem_append.mp hmem with h1 | h2
      · have hc1 := run_level_commit sc tools renderF execF lvl ctx h1 hnd1
        have hn2 : n ∉ (run_levels sc tools renderF execF rest
            (run_level sc tools renderF execF lvl ctx).ctx).executed.map Prod.fst := by
          intro hmem2
          exact hdisj (List.mem_map.mpr ⟨(n, r), h1, rfl⟩) hmem2
        exact run_levels_ctx_mono sc tools renderF execF rest _ hc1 hn2
      · exact ih _ h2 hnd2

theorem run_levels_names_prefix_of_flatten (sc : Scenario) (tools : List String)
    (renderF : Step → Ctx → List (String × PValue))
    (execF : Step → List (String × PValue) → ExecResult) :
    ∀ (pending : List (List String)) (ctx : Ctx),
      ((run_levels sc tools renderF execF pending ctx).executed.map
        Prod.fst).IsPrefix pending.flatten := by
  intro pending
  induction pending with
  | nil =>
    intro ctx
    rw [run_levels_nil]
    exact List.nil_prefix
  | cons lvl rest ih =>
    intro ctx
    cases hab : (run_level sc tools renderF execF lvl ctx).aborted with
    | some errs =>
      rw [run_levels_cons_abort sc tools renderF execF rest ctx hab,
        List.flatten_cons]
      exact (run_level_names_prefix_of_level sc tools renderF execF lvl ctx).trans
        (List.prefix_append lvl rest.flatten)
    | none =>
      rw [run_levels_cons_go sc tools renderF execF rest ctx hab,
        List.flatten_cons]
      obtain ⟨t, ht⟩ := ih (run_level sc tools renderF execF lvl ctx).ctx
      refine ⟨t, ?_⟩
      show (((run_level sc tools renderF execF lvl ctx).executed ++
          (run_levels sc tools renderF execF rest
            (run_level sc tools renderF execF lvl ctx).ctx).executed).map
          Prod.fst) ++ t = lvl ++ rest.flatten
      rw [List.map_append,
        run_level_complete_of_none sc tools renderF execF lvl ctx hab,
        List.append_assoc, ht]

theorem exec_order_flatten_nodup {sc : Scenario} {g : DependencyGraph}
    (hg : extract_dependencies sc = Except.ok g) :
    g.execution_order.flatten.Nodup := by
  obtain ⟨_, _, hord⟩ := extract_dependencies_ok hg
  rw [calculate_execution_order_eq] at hord
  have hk : (((buildGraphParts sc).1.map
      (fun p => (p.1, p.2.dependencies))).map Prod.fst).Nodup := by
    rw [remaining_keys_eq]
    exact buildGraphParts_keys_nodup sc
  exact ((calcOrderGo_perm _ _ _ hk hord).symm).nodup hk

/-- Agreement of two executors on everything the orchestration loop reads:
exit code, outputs, and command — they may differ in the tool-level
validation verdict. -/
def execAgree (execF execF2 : Step → List (String × PValue) → ExecResult) : Prop :=
  ∀ st p, (execF st p).returncode = (execF2 st p).returncode ∧
    (execF st p).outputs = (execF2 st p).outputs ∧
    (execF st p).command = (execF2 st p).command

theorem run_level_agree (sc : Scenario) (tools : List String)
    (renderF : Step → Ctx → List (String × PValue))
    {execF execF2 : Step → List (String × PValue) → ExecResult}
    (hag : execAgree execF execF2) :
    ∀ (lvl : List String) (ctx : Ctx),
      (run_level sc tools renderF execF lvl ctx).ctx =
        (run_level sc tools renderF execF2 lvl ctx).ctx ∧
      (run_level sc tools renderF execF lvl ctx).aborted =
        (run_level sc tools renderF execF2 lvl ctx).aborted ∧
      (run_level sc tools renderF execF lvl ctx).executed.map
          (fun e => (e.1, e.2.returncode)) =
        (run_level sc tools renderF execF2 lvl ctx).executed.map
          (fun e => (e.1, e.2.returncode)) := by
  intro lvl
  induction lvl with
  | nil =>
    intro ctx
    rw [run_level_nil, run_level_nil]
    exact ⟨rfl, rfl, rfl⟩
  | cons n0 rest ih =>
    intro ctx
    cases hfs : findStep sc.steps n0 with
    | none =>
      rw [run_level_cons_not_found sc tools renderF execF rest ctx hfs,
        run_level_cons_not_found sc tools renderF execF2 rest ctx hfs]
      exact ⟨rfl, rfl, rfl⟩
    | some step =>
      by_cases hts : step.tool ∈ tools
      · obtain ⟨hrc, hout, hcmd⟩ := hag step (renderF step ctx)
        by_cases hfi : ¬(execF step (renderF step ctx)).returncode = 0 ∧
            step.continue_on_failure = false
        · have hfi2 : ¬(execF2 step (renderF step ctx)).returncode = 0 ∧
              step.continue_on_failure = false := ⟨hrc ▸ hfi.1, hfi.2⟩
          rw [run_level_cons_fatal sc tools renderF execF rest ctx hfs hts hfi,
            run_level_cons_fatal sc tools renderF execF2 rest ctx hfs hts hfi2]
          refine ⟨by rw [hout], ?_, by simp [hrc]⟩
          have hmsg : failMsgs step (execF step (renderF step ctx)) =
              failMsgs step (execF2 step (renderF step ctx)) := by
            simp [failMsgs, hrc, hcmd]
          rw [hmsg]
        · have himp : ¬(execF step (renderF step ctx)).returncode = 0 →
              step.continue_on_failure = true := by
            intro h1
            by_cases hc : step.continue_on_failure = true
            · exact hc
            · exact absurd ⟨h1, by simpa using hc⟩ hfi
          have himp2 : ¬(execF2 step (renderF step ctx)).returncode = 0 →
              step.continue_on_failure = true := by
            intro h1
            exact himp (hrc ▸ h1)
          rw [run_level_cons_step sc tools renderF execF rest ctx hfs hts himp,
            run_level_cons_step sc tools renderF execF2 rest ctx hfs hts himp2]
          have hctx2 : dictInsert ctx step.name
              (execF step (renderF step ctx)).outputs =
            dictInsert ctx step.name (execF2 step (renderF step ctx)).outputs := by
            rw [hout]
          obtain ⟨ih1, ih2, ih3⟩ := ih (dictInsert ctx step.name
            (execF step (renderF step ctx)).outputs)
          refine ⟨?_, ?_, ?_⟩
          · show (run_level sc tools renderF execF rest _).ctx =
              (run_level sc tools renderF execF2 rest _).ctx
            rw [← hctx2]
            exact ih1
          · show (run_level sc tools renderF execF rest _).aborted =
              (run_level sc tools renderF execF2 rest _).aborted
            rw [← hctx2]
            exact ih2
          · simp only [List.map_cons]
            rw [← hctx2, hrc, ih3]
      · rw [run_level_cons_no_tool sc tools renderF execF rest ctx hfs hts,
          run_level_cons_no_tool sc tools renderF execF2 rest ctx hfs hts]
        exact ⟨rfl, rfl, rfl⟩

theorem run_levels_agree (sc : Scenario) (tools : List String)
    (renderF : Step → Ctx → List (String × PValue))
    {execF execF2 : Step → List (String × PValue) → ExecResult}
    (hag : execAgree execF execF2) :
    ∀ (pending : List (List String)) (ctx : Ctx),
      (run_levels sc tools renderF execF pending ctx).ctx =
        (run_levels sc tools renderF execF2 pending ctx).ctx ∧
      (run_levels sc tools renderF execF pending ctx).aborted =
        (run_levels sc tools renderF execF2 pending ctx).aborted ∧
      (run_levels sc tools renderF execF pending ctx).executed.map
          (fun e => (e.1, e.2.returncode)) =
        (run_levels sc tools renderF execF2 pending ctx).executed.map
          (fun e => (e.1, e.2.returncode)) := by
  intro pending
  induction pending with
  | nil =>
    intro ctx
    rw [run_levels_nil, run_levels_nil]
    exact ⟨rfl, rfl, rfl⟩
  | cons lvl rest ih =>
    intro ctx
    obtain ⟨h1, h2, h3⟩ := run_level_agree sc tools renderF hag lvl ctx
    cases hab : (run_level sc tools renderF execF lvl ctx).aborted with
    | some errs =>
      have hab2 : (run_level sc tools renderF execF2 lvl ctx).aborted =
          some errs := by
        rw [← h2]
        exact hab
      rw [run_levels_cons_abort sc tools renderF execF rest ctx hab,
        run_levels_cons_abort sc tools renderF execF2 rest ctx hab2]
      exact ⟨h1, h2, h3⟩
    | none =>
      have hab2 : (run_level sc tools renderF execF2 lvl ctx).aborted = none := by
        rw [← h2]
        exact hab
      rw [run_levels_cons_go sc tools renderF execF rest ctx hab,
        run_levels_cons_go sc tools renderF execF2 rest ctx hab2]
      obtain ⟨ih1, ih2, ih3⟩ := ih (run_level sc tools renderF execF lvl ctx).ctx
      refine ⟨?_, ?_, ?_⟩
      · show (run_levels sc tools renderF execF rest _).ctx =
          (run_levels sc tools renderF execF2 rest _).ctx
        rw [← h1]
        exact ih1
      · show (run_levels sc tools renderF execF rest _).aborted =
          (run_levels sc tools renderF execF2 rest _).aborted
        rw [← h1]
        exact ih2
      · simp only [List.map_append]
        rw [← h1, h3, ih3]

theorem run_case_scenario_extract_error {sc : Scenario} (tools : List String)
    (renderF : Step → Ctx → List (String × PValue))
    (execF : Step → List (String × PValue) → ExecResult) {e : String}
    (hval : validate_dependencies sc = [])
    (hx : extract_dependencies sc = Except.error e) :
    run_case_scenario sc tools renderF execF = ⟨⟨false, [e]⟩, [], []⟩ := by
  have hempty : (validate_dependencies sc).isEmpty = true := by simp [hval]
  simp [run_case_scenario, hempty, hx]

theorem run_case_scenario_of_ok {sc : Scenario} (tools : List String)
    (renderF : Step → Ctx → List (String × PValue))
    (execF : Step → List (String × PValue) → ExecResult) {g : DependencyGraph}
    (hval : validate_dependencies sc = [])
    (hx : extract_dependencies sc = Except.ok g) :
    (run_case_scenario sc tools renderF execF).executed =
      (run_levels sc tools renderF execF g.execution_order []).executed ∧
    (run_case_scenario sc tools renderF execF).ctx =
      (run_levels sc tools renderF execF g.execution_order []).ctx ∧
    (run_case_scenario sc tools renderF execF).result =
      (match (run_levels sc tools renderF execF g.execution_order []).aborted with
       | some errs => CaseRunResult.mk false errs
       | none => CaseRunResult.mk true []) := by
  have hempty : (validate_dependencies sc).isEmpty = true := by simp [hval]
  simp only [run_case_scenario, hempty, if_true, hx]
  cases hab : (run_levels sc tools renderF execF g.execution_order []).aborted <;>
    simp [hab]

/-- Claim C10 (implicit): every executed step's outputs are committed into
the context before its failure status is checked — so they are present in
the final context even for a fatally failing step — and the run outcome is
determined solely by step names, exit codes, outputs and commands: an
executor differing only in tool-level validation verdicts yields the same
result, context, and (name, exit code) trace. -/
theorem claim_C10_commit_before_check_and_exit_code_only (sc : Scenario)
    (tools : List String) (renderF : Step → Ctx → List (String × PValue))
    (execF execF2 : Step → List (String × PValue) → ExecResult) :
    (∀ n r, (n, r) ∈ (run_case_scenario sc tools renderF execF).executed →
      (n, r.outputs) ∈ (run_case_scenario sc tools renderF execF).ctx) ∧
    (execAgree execF execF2 →
      (run_case_scenario sc tools renderF execF).result =
        (run_case_scenario sc tools renderF execF2).result ∧
      (run_case_scenario sc tools renderF execF).ctx =
        (run_case_scenario sc tools renderF execF2).ctx ∧
      (run_case_scenario sc tools renderF execF).executed.map
          (fun e => (e.1, e.2.returncode)) =
        (run_case_scenario sc tools renderF execF2).executed.map
          (fun e => (e.1, e.2.returncode))) := by
  constructor
  · intro n r hmem
    cases hval : validate_dependencies sc with
    | cons e es =>
      rw [run_case_scenario_validation_failure_eq sc tools renderF execF
        (by rw [hval]; exact List.cons_ne_nil e es)] at hmem
      cases hmem
    | nil =>
      cases hx : extract_dependencies sc with
      | error e =>
        rw [run_case_scenario_extract_error tools renderF execF hval hx] at hmem
        cases hmem
      | ok g =>
        obtain ⟨hex, hctx, _⟩ := run_case_scenario_of_ok tools renderF execF hval hx
        rw [hex] at hmem
        rw [hctx]
        have hnd : ((run_levels sc tools renderF execF
            g.execution_order []).executed.map Prod.fst).Nodup :=
          ((run_levels_names_prefix_of_flatten sc tools renderF execF
            g.execution_order []).sublist).nodup (exec_order_flatten_nodup hx)
        exact run_levels_commit sc tools renderF execF g.execution_order [] hmem hnd
  · intro hag
    cases hval : validate_dependencies sc with
    | cons e es =>
      have hne : validate_dependencies sc ≠ [] := by
        rw [hval]
        exact List.cons_ne_nil e es
      rw [run_case_scenario_validation_failure_eq sc tools renderF execF hne,
        run_case_scenario_validation_failure_eq sc tools renderF execF2 hne]
      exact ⟨rfl, rfl, rfl⟩
    | nil =>
      cases hx : extract_dependencies sc with
      | error e =>
        rw [run_case_scenario_extract_error tools renderF execF hval hx,
          run_case_scenario_extract_error tools renderF execF2 hval hx]
        exact ⟨rfl, rfl, rfl⟩
      | ok g =>
        obtain ⟨hex1, hctx1, hres1⟩ := run_case_scenario_of_ok tools renderF execF hval hx
        obtain ⟨hex2, hctx2, hres2⟩ := run_case_scenario_of_ok tools renderF execF2 hval hx
        obtain ⟨ha1, ha2, ha3⟩ := run_levels_agree sc tools renderF hag
          g.execution_order []
        refine ⟨?_, ?_, ?_⟩
        · rw [hres1, hres2, ha2]
        · rw [hctx1, hctx2, ha1]
        · rw [hex1, hex2, ha3]

/-! ### Plugin loop lemmas -/

theorem plugin_run_level_nil (sc : Scenario) (tools : List String)
    (renderF : Step → Ctx → List (String × PValue))
    (execF : Step → List (String × PValue) → ExecResult) (ctx : Ctx) :
    plugin_run_level sc tools renderF execF [] ctx = ⟨[], [], ctx, none⟩ := rfl

theorem plugin_cons_not_found (sc : Scenario) (tools : List String)
    (renderF : Step → Ctx → List (String × PValue))
    (execF : Step → List (String × PValue) → ExecResult)
    {n : String} (rest : List String) (ctx : Ctx)
    (hfs : findStep sc.steps n = none) :
    plugin_run_level sc tools renderF execF (n :: rest) ctx =
      ⟨[], [], ctx, some (pluginStepNotFoundMsg n)⟩ := by
  simp [plugin_run_level, hfs]

theorem plugin_cons_no_tool (sc : Scenario) (tools : List String)
    (renderF : Step → Ctx → List (String × PValue))
    (execF : Step → List (String × PValue) → ExecResult)
    {n : String} (rest : List String) (ctx : Ctx) {step : Step}
    (hfs : findStep sc.steps n = some step)
    (hts : step.tool ∉ tools) :
    plugin_run_level sc tools renderF execF (n :: rest) ctx =
      ⟨[], [], ctx, some (pluginToolNotFoundMsg step)⟩ := by
  simp [plugin_run_level, hfs, hts]

theorem plugin_cons_fatal (sc : Scenario) (tools : List String)
    (renderF : Step → Ctx → List (String × PValue))
    (execF : Step → List (String × PValue) → ExecResult)
    {n : String} (rest : List String) (ctx : Ctx) {step : Step}
    (hfs : findStep sc.steps n = some step)
    (hts : step.tool ∈ tools)
    (hrc : ¬(execF step (renderF step ctx)).returncode = 0)
    (hcof : step.continue_on_failure = false) :
    plugin_run_level sc tools renderF execF (n :: rest) ctx =
      ⟨[(step.name, execF step (renderF step ctx))],
       [(step.name, (execF step (renderF step ctx)).returncode,
         (execF step (renderF step ctx)).command)],
       dictInsert ctx step.name (execF step (renderF step ctx)).outputs,
       some (plugin_fail_msg step (execF step (renderF step ctx)))⟩ := by
  simp [plugin_run_level, hfs, hts, hrc, hcof]

theorem plugin_cons_cof (sc : Scenario) (tools : List String)
    (renderF : Step → Ctx → List (String × PValue))
    (execF : Step → List (String × PValue) → ExecResult)
    {n : String} (rest : List String) (ctx : Ctx) {step : Step}
    (hfs : findStep sc.steps n = some step)
    (hts : step.tool ∈ tools)
    (hrc : ¬(execF step (renderF step ctx)).returncode = 0)
    (hcof : step.continue_on_failure = true) :
    plugin_run_level sc tools renderF execF (n :: rest) ctx =
      ⟨(step.name, execF step (renderF step ctx)) ::
        (plugin_run_level sc tools renderF execF rest
          (dictInsert ctx step.name (execF step (renderF step ctx)).outputs)).executed,
       (step.name, (execF step (renderF step ctx)).returncode,
         (execF step (renderF step ctx)).command) ::
        (plugin_run_level sc tools renderF execF rest
          (dictInsert ctx step.name (execF step (renderF step ctx)).outputs)).error_records,
       (plugin_run_level sc tools renderF execF rest
          (dictInsert ctx step.name (execF step (renderF step ctx)).outputs)).ctx,
       (plugin_run_level sc tools renderF execF rest
          (dictInsert ctx step.name (execF step (renderF step ctx)).outputs)).aborted⟩ := by
  simp [plugin_run_level, hfs, hts, hrc, hcof]

theorem plugin_cons_pass (sc : Scenario) (tools : List String)
    (renderF : Step → Ctx → List (String × PValue))
    (execF : Step → List (String × PValue) → ExecResult)
    {n : String} (rest : List String) (ctx : Ctx) {step : Step}
    (hfs : findStep sc.steps n = some step)
    (hts : step.tool ∈ tools)
    (hrc : (execF step (renderF step ctx)).returncode = 0) :
    plugin_run_level sc tools renderF execF (n :: rest) ctx =
      ⟨(step.name, execF step (renderF step ctx)) ::
        (plugin_run_level sc tools renderF execF rest
          (dictInsert ctx step.name (execF step (renderF step ctx)).outputs)).executed,
       (plugin_run_level sc tools renderF execF rest
          (dictInsert ctx step.name (execF step (renderF step ctx)).outputs)).error_records,
       (plugin_run_level sc tools renderF execF rest
          (dictInsert ctx step.name (execF step (renderF step ctx)).outputs)).ctx,
       (plugin_run_level sc tools renderF execF rest
          (dictInsert ctx step.name (execF step (renderF step ctx)).outputs)).aborted⟩ := by
  simp [plugin_run_level, hfs, hts, hrc]

theorem plugin_levels_nil (sc : Scenario) (tools : List String)
    (renderF : Step → Ctx → List (String × PValue))
    (execF : Step → List (String × PValue) → ExecResult) (ctx : Ctx) :
    plugin_run_levels sc tools renderF execF [] ctx = ⟨[], [], ctx, none⟩ := rfl

theorem plugin_levels_cons_abort (sc : Scenario) (tools : List String)
    (renderF : Step → Ctx → List (String × PValue))
    (execF : Step → List (String × PValue) → ExecResult)
    {lvl : List String} (rest : List (List String)) (ctx : Ctx) {m : String}
    (hab : (plugin_run_level sc tools renderF execF lvl ctx).aborted = some m) :
    plugin_run_levels sc tools renderF execF (lvl :: rest) ctx =
      plugin_run_level sc tools renderF execF lvl ctx := by
  simp [plugin_run_levels, hab]

theorem plugin_levels_cons_go (sc : Scenario) (tools : List String)
    (renderF : Step → Ctx → List (String × PValue))
    (execF : Step → List (String × PValue) → ExecResult)
    {lvl : List String} (rest : List (List String)) (ctx : Ctx)
    (hab : (plugin_run_level sc tools renderF execF lvl ctx).aborted = none) :
    plugin_run_levels sc tools renderF execF (lvl :: rest) ctx =
      ⟨(plugin_run_level sc tools renderF execF lvl ctx).executed ++
        (plugin_run_levels sc tools renderF execF rest
          (plugin_run_level sc tools renderF execF lvl ctx).ctx).executed,
       (plugin_run_level sc tools renderF execF lvl ctx).error_records ++
        (plugin_run_levels sc tools renderF execF rest
          (plugin_run_level sc tools renderF execF lvl ctx).ctx).error_records,
       (plugin_run_levels sc tools renderF execF rest
          (plugin_run_level sc tools renderF execF lvl ctx).ctx).ctx,
       (plugin_run_levels sc tools renderF execF rest
          (plugin_run_level sc tools renderF execF lvl ctx).ctx).aborted⟩ := by
  simp [plugin_run_levels, hab]

theorem plugin_run_level_names (sc : Scenario) (tools : List String)
    (renderF : Step → Ctx → List (String × PValue))
    (execF : Step → List (String × PValue) → ExecResult) :
    ∀ (lvl : List String) (ctx : Ctx) {t : String} {r2 : ExecResult},
      (t, r2) ∈ (plugin_run_level sc tools renderF execF lvl ctx).executed →
      t ∈ lvl := by
  intro lvl
  induction lvl with
  | nil =>
    intro ctx t r2 hmem
    rw [plugin_run_level_nil] at hmem
    cases hmem
  | cons n0 rest ih =>
    intro ctx t r2 hmem
    cases hfs : findStep sc.steps n0 with
    | none =>
      rw [plugin_cons_not_found sc tools renderF execF rest ctx hfs] at hmem
      cases hmem
    | some step =>
      have hname := findStep_name hfs
      by_cases hts : step.tool ∈ tools
      · by_cases hrc : (execF step (renderF step ctx)).returncode = 0
        · rw [plugin_cons_pass sc tools renderF execF rest ctx hfs hts hrc] at hmem
          rcases List.mem_cons.mp hmem with heq | h2
          · injection heq with h3 _
            rw [h3, hname]
            exact List.mem_cons_self n0 rest
          · exact List.mem_cons_of_mem n0 (ih _ h2)
        · cases hcof : step.continue_on_failure with
          | true =>
            rw [plugin_cons_cof sc tools renderF execF rest ctx hfs hts hrc hcof] at hmem
            rcases List.mem_cons.mp hmem with heq | h2
            · injection heq with h3 _
              rw [h3, hname]
              exact List.mem_cons_self n0 rest
            · exact List.mem_cons_of_mem n0 (ih _ h2)
          | false =>
            rw [plugin_cons_fatal sc tools renderF execF rest ctx hfs hts hrc hcof] at hmem
            rcases List.mem_cons.mp hmem with heq | h2
            · injection heq with h3 _
              rw [h3, hname]
              exact List.mem_cons_self n0 rest
            · cases h2
      · rw [plugin_cons_no_tool sc tools renderF execF rest ctx hfs hts] at hmem
        cases hmem

theorem getLast?_cons_ne_nil {α : Type} (a : α) {l : List α} (h : l ≠ []) :
    (a :: l).getLast? = l.getLast? := by
  cases hl : l.getLast? with
  | none =>
    rw [List.getLast?_eq_none_iff] at hl
    exact absurd hl h
  | some x =>
    show (([a] : List α) ++ l).getLast? = some x
    rw [List.getLast?_append, hl]
    rfl

theorem plugin_run_level_fatal (sc : Scenario) (tools : List String)
    (renderF : Step → Ctx → List (String × PValue))
    (execF : Step → List (String × PValue) → ExecResult) :
    ∀ (lvl : List String) (ctx : Ctx) {s : String} {r : ExecResult} {st : Step},
      (s, r) ∈ (plugin_run_level sc tools renderF execF lvl ctx).executed →
      findStep sc.steps s = some st → ¬ r.returncode = 0 →
      st.continue_on_failure = false →
      (plugin_run_level sc tools renderF execF lvl ctx).aborted =
        some (plugin_fail_msg st r) ∧
      (plugin_run_level sc tools renderF execF lvl ctx).executed.getLast? =
        some (s, r) := by
  intro lvl
  induction lvl with
  | nil =>
    intro ctx s r st hmem _ _ _
    rw [plugin_run_level_nil] at hmem
    cases hmem
  | cons n0 rest ih =>
    intro ctx s r st hmem hfs2 hrc2 hcof2
    cases hfs : findStep sc.steps n0 with
    | none =>
      rw [plugin_cons_not_found sc tools renderF execF rest ctx hfs] at hmem
      cases hmem
    | some step =>
      have hname := findStep_name hfs
      by_cases hts : step.tool ∈ tools
      · by_cases hrc0 : (execF step (renderF step ctx)).returncode = 0
        · rw [plugin_cons_pass sc tools renderF execF rest ctx hfs hts hrc0] at hmem ⊢
          rcases List.mem_cons.mp hmem with heq | h2
          · exfalso
            injection heq with _ h4
            exact hrc2 (by rw [h4]; exact hrc0)
          · have hres := ih _ h2 hfs2 hrc2 hcof2
            refine ⟨hres.1, ?_⟩
            show ((step.name, execF step (renderF step ctx)) ::
              (plugin_run_level sc tools renderF execF rest
                (dictInsert ctx step.name
                  (execF step (renderF step ctx)).outputs)).executed).getLast? =
              some (s, r)
            have hne : (plugin_run_level sc tools renderF execF rest
                (dictInsert ctx step.name
                  (execF step (renderF step ctx)).outputs)).executed ≠ [] := by
              intro h0
              rw [h0] at h2
              cases h2
            rw [getLast?_cons_ne_nil _ hne]
            exact hres.2
        · cases hcof0 : step.continue_on_failure with
          | true =>
            rw [plugin_cons_cof sc tools renderF execF rest ctx hfs hts hrc0 hcof0] at hmem ⊢
            rcases List.mem_cons.mp hmem with heq | h2
            · exfalso
              injection heq with h3 _
              rw [h3, hname] at hfs2
              have hst : st = step := by
                injection hfs2.symm.trans hfs
              rw [hst, hcof0] at hcof2
              cases hcof2
            · have hres := ih _ h2 hfs2 hrc2 hcof2
              refine ⟨hres.1, ?_⟩
              show ((step.name, execF step (renderF step ctx)) ::
                (plugin_run_level sc tools renderF execF rest
                  (dictInsert ctx step.name
                    (execF step (renderF step ctx)).outputs)).executed).getLast? =
                some (s, r)
              have hne : (plugin_run_level sc tools renderF execF rest
                  (dictInsert ctx step.name
                    (execF step (renderF step ctx)).outputs)).executed ≠ [] := by
                intro h0
                rw [h0] at h2
                cases h2
              rw [getLast?_cons_ne_nil _ hne]
              exact hres.2
          | false =>
            rw [plugin_cons_fatal sc tools renderF execF rest ctx hfs hts hrc0 hcof0] at hmem ⊢
            rcases List.mem_cons.mp hmem with heq | h2
            · injection heq with h3 h4
              have hst : st = step := by
                rw [h3, hname] at hfs2
                injection hfs2.symm.trans hfs
              constructor
              · show some (plugin_fail_msg step (execF step (renderF step ctx))) =
                  some (plugin_fail_msg st r)
                rw [hst, h4]
              · show some (step.name, execF step (renderF step ctx)) = some (s, r)
                rw [h3, h4]
            · cases h2
      · rw [plugin_cons_no_tool sc tools renderF execF rest ctx hfs hts] at hmem
        cases hmem

theorem plugin_run_levels_fatal (sc : Scenario) (tools : List String)
    (renderF : Step → Ctx → List (String × PValue))
    (execF : Step → List (String × PValue) → ExecResult) :
    ∀ (pending : List (List String)) (ctx : Ctx) {s : String} {r : ExecResult}
      {st : Step},
      (s, r) ∈ (plugin_run_levels sc tools renderF execF pending ctx).executed →
      findStep sc.steps s = some st → ¬ r.returncode = 0 →
      st.continue_on_failure = false →
      (plugin_run_levels sc tools renderF execF pending ctx).aborted =
        some (plugin_fail_msg st r) ∧
      (plugin_run_levels sc tools renderF execF pending ctx).executed.getLast? =
        some (s, r) ∧
      ∃ k, ∃ (hk : k < pending.length), s ∈ pending.get ⟨k, hk⟩ ∧
        ∀ t r2, (t, r2) ∈
            (plugin_run_levels sc tools renderF execF pending ctx).executed →
          ∃ k2, k2 ≤ k ∧ ∃ (hk2 : k2 < pending.length),
            t ∈ pending.get ⟨k2, hk2⟩ := by
  intro pending
  induction pending with
  | nil =>
    intro ctx s r st hmem _ _ _
    rw [plugin_levels_nil] at hmem
    cases hmem
  | cons lvl rest ih =>
    intro ctx s r st hmem hfs2 hrc2 hcof2
    cases hab : (plugin_run_level sc tools renderF execF lvl ctx).aborted with
    | some m =>
      rw [plugin_levels_cons_abort sc tools renderF execF rest ctx hab] at hmem ⊢
      have hres := plugin_run_level_fatal sc tools renderF execF lvl ctx hmem
        hfs2 hrc2 hcof2
      refine ⟨hres.1, hres.2, 0, by simp, ?_, ?_⟩
      · exact plugin_run_level_names sc tools renderF execF lvl ctx hmem
      · intro t r2 hmem2
        exact ⟨0, Nat.le_refl 0, by simp,
          plugin_run_level_names sc tools renderF execF lvl ctx hmem2⟩
    | none =>
      rw [plugin_levels_cons_go sc tools renderF execF rest ctx hab] at hmem ⊢
      rcases List.mem_append.mp hmem with h1 | h2
      · exfalso
        have hres := plugin_run_level_fatal sc tools renderF execF lvl ctx h1
          hfs2 hrc2 hcof2
        rw [hab] at hres
        cases hres.1
      · have hres := ih _ h2 hfs2 hrc2 hcof2
        obtain ⟨hres1, hres2, k, hk, hsk, hall⟩ := hres
        have hne : (plugin_run_levels sc tools renderF execF rest
            (plugin_run_level sc tools renderF execF lvl ctx).ctx).executed ≠ [] := by
          intro h0
          rw [h0] at h2
          cases h2
        refine ⟨hres1, ?_, k + 1, Nat.succ_lt_succ hk, hsk, ?_⟩
        · show ((plugin_run_level sc tools renderF execF lvl ctx).executed ++
            (plugin_run_levels sc tools renderF execF rest
              (plugin_run_level sc tools renderF execF lvl ctx).ctx).executed).getLast? =
            some (s, r)
          rw [List.getLast?_append, hres2]
          rfl
        · intro t r2 hmem2
          rcases List.mem_append.mp hmem2 with hm1 | hm2
          · exact ⟨0, Nat.zero_le _, by simp,
              plugin_run_level_names sc tools renderF execF lvl ctx hm1⟩
          · obtain ⟨k2, hk2le, hk2, htk2⟩ := hall t r2 hm2
            exact ⟨k2 + 1, Nat.succ_le_succ hk2le, Nat.succ_lt_succ hk2, htk2⟩

theorem plugin_run_level_recorded (sc : Scenario) (tools : List String)
    (renderF : Step → Ctx → List (String × PValue))
    (execF : Step → List (String × PValue) → ExecResult) :
    ∀ (lvl : List String) (ctx : Ctx) {s : String} {r : ExecResult},
      (s, r) ∈ (plugin_run_level sc tools renderF execF lvl ctx).executed →
      ¬ r.returncode = 0 →
      (s, r.returncode, r.command) ∈
        (plugin_run_level sc tools renderF execF lvl ctx).error_records := by
  intro lvl
  induction lvl with
  | nil =>
    intro ctx s r hmem _
    rw [plugin_run_level_nil] at hmem
    cases hmem
  | cons n0 rest ih =>
    intro ctx s r hmem hrc2
    cases hfs : findStep sc.steps n0 with
    | none =>
      rw [plugin_cons_not_found sc tools renderF execF rest ctx hfs] at hmem
      cases hmem
    | some step =>
      by_cases hts : step.tool ∈ tools
      · by_cases hrc0 : (execF step (renderF step ctx)).returncode = 0
        · rw [plugin_cons_pass sc tools renderF execF rest ctx hfs hts hrc0] at hmem ⊢
          rcases List.mem_cons.mp hmem with heq | h2
          · exfalso
            injection heq with _ h4
            exact hrc2 (by rw [h4]; exact hrc0)
          · exact ih _ h2 hrc2
        · cases hcof0 : step.continue_on_failure with
          | true =>
            rw [plugin_cons_cof sc tools renderF execF rest ctx hfs hts hrc0 hcof0] at hmem ⊢
            rcases List.mem_cons.mp hmem with heq | h2
            · injection heq with h3 h4
              rw [h3, h4]
              exact List.mem_cons_self _ _
            · exact List.mem_cons_of_mem _ (ih _ h2 hrc2)
          | false =>
            rw [plugin_cons_fatal sc tools renderF execF rest ctx hfs hts hrc0 hcof0] at hmem ⊢
            rcases List.mem_cons.mp hmem with heq | h2
            · injection heq with h3 h4
              rw [h3, h4]
              exact List.mem_cons_self _ _
            · cases h2
      · rw [plugin_cons_no_tool sc tools renderF execF rest ctx hfs hts] at hmem
        cases hmem

theorem plugin_run_levels_recorded (sc : Scenario) (tools : List String)
    (renderF : Step → Ctx → List (String × PValue))
    (execF : Step → List (String × PValue) → ExecResult) :
    ∀ (pending : List (List String)) (ctx : Ctx) {s : String} {r : ExecResult},
      (s, r) ∈ (plugin_run_levels sc tools renderF execF pending ctx).executed →
      ¬ r.returncode = 0 →
      (s, r.returncode, r.command) ∈
        (plugin_run_levels sc tools renderF execF pending ctx).error_records := by
  intro pending
  induction pending with
  | nil =>
    intro ctx s r hmem _
    rw [plugin_levels_nil] at hmem
    cases hmem
  | cons lvl rest ih =>
    intro ctx s r hmem hrc2
    cases hab : (plugin_run_level sc tools renderF execF lvl ctx).aborted with
    | some m =>
      rw [plugin_levels_cons_abort sc tools renderF execF rest ctx hab] at hmem ⊢
      exact plugin_run_level_recorded sc tools renderF execF lvl ctx hmem hrc2
    | none =>
      rw [plugin_levels_cons_go sc tools renderF execF rest ctx hab] at hmem ⊢
      rcases List.mem_append.mp hmem with h1 | h2
      · exact List.mem_append.mpr (Or.inl
          (plugin_run_level_recorded sc tools renderF execF lvl ctx h1 hrc2))
      · exact List.mem_append.mpr (Or.inr (ih _ h2 hrc2))

theorem plugin_run_level_complete (sc : Scenario) (tools : List String)
    (renderF : Step → Ctx → List (String × PValue))
    (execF : Step → List (String × PValue) → ExecResult) :
    ∀ (lvl : List String) (ctx : Ctx),
      (∀ n ∈ lvl, ∃ st, findStep sc.steps n = some st ∧ st.tool ∈ tools) →
      (∀ s r st, (s, r) ∈ (plugin_run_level sc tools renderF execF lvl ctx).executed →
        findStep sc.steps s = some st → ¬ r.returncode = 0 →
        st.continue_on_failure = true) →
      (plugin_run_level sc tools renderF execF lvl ctx).aborted = none ∧
      (plugin_run_level sc tools renderF execF lvl ctx).executed.map Prod.fst =
        lvl := by
  intro lvl
  induction lvl with
  | nil =>
    intro ctx _ _
    rw [plugin_run_level_nil]
    exact ⟨rfl, rfl⟩
  | cons n0 rest ih =>
    intro ctx hall hfail
    obtain ⟨st0, hfs, hts⟩ := hall n0 (List.mem_cons_self n0 rest)
    have hname := findStep_name hfs
    by_cases hrc0 : (execF st0 (renderF st0 ctx)).returncode = 0
    · rw [plugin_cons_pass sc tools renderF execF rest ctx hfs hts hrc0] at hfail ⊢
      have hres := ih _ (fun n hn => hall n (List.mem_cons_of_mem n0 hn))
        (fun s r st hm => hfail s r st (List.mem_cons_of_mem _ hm))
      refine ⟨hres.1, ?_⟩
      simp only [List.map_cons]
      rw [hres.2, hname]
    · cases hcof0 : st0.continue_on_failure with
      | true =>
        rw [plugin_cons_cof sc tools renderF execF rest ctx hfs hts hrc0 hcof0] at hfail ⊢
        have hres := ih _ (fun n hn => hall n (List.mem_cons_of_mem n0 hn))
          (fun s r st hm => hfail s r st (List.mem_cons_of_mem _ hm))
        refine ⟨hres.1, ?_⟩
        simp only [List.map_cons]
        rw [hres.2, hname]
      | false =>
        exfalso
        rw [plugin_cons_fatal sc tools renderF execF rest ctx hfs hts hrc0 hcof0] at hfail
        have hcof1 := hfail st0.name (execF st0 (renderF st0 ctx)) st0
          (List.mem_cons_self _ _) (by rw [hname]; exact hfs) hrc0
        rw [hcof0] at hcof1
        cases hcof1
      
theorem plugin_run_levels_complete (sc : Scenario) (tools : List String)
    (renderF : Step → Ctx → List (String × PValue))
    (execF : Step → List (String × PValue) → ExecResult) :
    ∀ (pending : List (List String)) (ctx : Ctx),
      (∀ n ∈ pending.flatten, ∃ st, findStep sc.steps n = some st ∧
        st.tool ∈ tools) →
      (∀ s r st, (s, r) ∈
          (plugin_run_levels sc tools renderF execF pending ctx).executed →
        findStep sc.steps s = some st → ¬ r.returncode = 0 →
        st.continue_on_failure = true) →
      (plugin_run_levels sc tools renderF execF pending ctx).aborted = none ∧
      (plugin_run_levels sc tools renderF execF pending ctx).executed.map
        Prod.fst = pending.flatten := by
  intro pending
  induction pending with
  | nil =>
    intro ctx _ _
    rw [plugin_levels_nil]
    exact ⟨rfl, rfl⟩
  | cons lvl rest ih =>
    intro ctx hall hfail
    have hall1 : ∀ n ∈ lvl, ∃ st, findStep sc.steps n = some st ∧
        st.tool ∈ tools := by
      intro n hn
      exact hall n (by rw [List.flatten_cons]; exact List.mem_append.mpr (Or.inl hn))
    cases hab : (plugin_run_level sc tools renderF execF lvl ctx).aborted with
    | some m =>
      exfalso
      have hfail1 : ∀ s r st,
          (s, r) ∈ (plugin_run_level sc tools renderF execF lvl ctx).executed →
          findStep sc.steps s = some st → ¬ r.returncode = 0 →
          st.continue_on_failure = true := by
        intro s r st hm hfs hrc
        refine hfail s r st ?_ hfs hrc
        rw [plugin_levels_cons_abort sc tools renderF execF rest ctx hab]
        exact hm
      have hres := plugin_run_level_complete sc tools renderF execF lvl ctx
        hall1 hfail1
      rw [hab] at hres
      cases hres.1
    | none =>
      rw [plugin_levels_cons_go sc tools renderF execF rest ctx hab] at hfail ⊢
      have hfail1 : ∀ s r st,
          (s, r) ∈ (plugin_run_level sc tools renderF execF lvl ctx).executed →
          findStep sc.steps s = some st → ¬ r.returncode = 0 →
          st.continue_on_failure = true := by
        intro s r st hm hfs hrc
        exact hfail s r st (List.mem_append.mpr (Or.inl hm)) hfs hrc
      have hres1 := plugin_run_level_complete sc tools renderF execF lvl ctx
        hall1 hfail1
      have hall2 : ∀ n ∈ rest.flatten, ∃ st, findStep sc.steps n = some st ∧
          st.tool ∈ tools := by
        intro n hn
        exact hall n (by rw [List.flatten_cons]; exact List.mem_append.mpr (Or.inr hn))
      have hfail2 : ∀ s r st,
          (s, r) ∈ (plugin_run_levels sc tools renderF execF rest
            (plugin_run_level sc tools renderF execF lvl ctx).ctx).executed →
          findStep sc.steps s = some st → ¬ r.returncode = 0 →
          st.continue_on_failure = true := by
        intro s r st hm hfs hrc
        exact hfail s r st (List.mem_append.mpr (Or.inr hm)) hfs hrc
      have hres2 := ih _ hall2 hfail2
      refine ⟨hres2.1, ?_⟩
      show ((plugin_run_level sc tools renderF execF lvl ctx).executed ++
        (plugin_run_levels sc tools renderF execF rest
          (plugin_run_level sc tools renderF execF lvl ctx).ctx).executed).map
        Prod.fst = (lvl :: rest).flatten
      rw [List.map_append, hres1.2, hres2.2, List.flatten_cons]

theorem validate_nil_of_ok {sc : Scenario}
    (hnd : (sc.steps.map Step.name).Nodup) {g : DependencyGraph}
    (hg : extract_dependencies sc = Except.ok g) :
    validate_dependencies sc = [] := by
  obtain ⟨_, _, hord⟩ := extract_dependencies_ok hg
  rw [calculate_execution_order_eq] at hord
  have hkeys : ((buildGraphParts sc).1.map
      (fun p => (p.1, p.2.dependencies))).map Prod.fst =
      sc.steps.map Step.name := by
    rw [remaining_keys_eq, graph_keys_eq_names hnd]
  have hnd2 : (((buildGraphParts sc).1.map
      (fun p => (p.1, p.2.dependencies))).map Prod.fst).Nodup := by
    rw [hkeys]
    exact hnd
  have hall : ∀ st ∈ sc.steps, ∀ d ∈ all_deps st, d ∈ sc.steps.map Step.name := by
    intro st hst d hd
    have hentry : (st.name, all_deps st) ∈ (buildGraphParts sc).1.map
        (fun p => (p.1, p.2.dependencies)) := by
      rw [remaining_of_nodup hnd]
      exact List.mem_map.mpr ⟨st, hst, rfl⟩
    have := calcOrderGo_ok_deps_keys hnd2 hord hentry hd (by simp)
    rw [hkeys] at this
    exact this
  have hmiss : validateMissing sc = [] := by
    rw [validateMissing_eq]
    rw [List.flatMap_eq_nil_iff]
    intro st hst
    rw [stepMissing]
    have hf1 : (st.depends_on.getD []).filter
        (fun d => !((sc.steps.map Step.name).contains d)) = [] := by
      rw [List.filter_eq_nil_iff]
      intro d hd
      have : d ∈ sc.steps.map Step.name :=
        hall st hst d (mem_all_deps.mpr (Or.inl hd))
      simp [this]
    have hf2 : (extract_template_dependencies st).filter
        (fun d => !((sc.steps.map Step.name).contains d)) = [] := by
      rw [List.filter_eq_nil_iff]
      intro d hd
      have : d ∈ sc.steps.map Step.name :=
        hall st hst d (mem_all_deps.mpr (Or.inr hd))
      simp [this]
    rw [hf1, hf2]
    rfl
  have hempty : (validateMissing sc).isEmpty = true := by simp [hmiss]
  simp [validate_dependencies, hempty, hg]

theorem plugin_runtest_eq_of_ok {sc : Scenario} (tools : List String)
    (renderF : Step → Ctx → List (String × PValue))
    (execF : Step → List (String × PValue) → ExecResult) {g : DependencyGraph}
    (hval : validate_dependencies sc = [])
    (hg : extract_dependencies sc = Except.ok g) :
    plugin_runtest sc tools renderF execF =
      plugin_run_levels sc tools renderF execF g.execution_order [] := by
  have hempty : (validate_dependencies sc).isEmpty = true := by simp [hval]
  simp [plugin_runtest, hempty, hg]

/-- Claim C5: in a scenario run, a failing step (nonzero exit code) whose
`continue_on_failure` is false aborts the run — the run fails, that step is
the last one started, and no step of any later level is started; every
failing step is recorded in the execution summary; and when every failure
is on a `continue_on_failure` step (and every step and tool resolves), the
run does not abort and every level executes to the end. -/
theorem claim_C5_failure_policy {sc : Scenario} (tools : List String)
    (renderF : Step → Ctx → List (String × PValue))
    (execF : Step → List (String × PValue) → ExecResult)
    (hnd : (sc.steps.map Step.name).Nodup) {g : DependencyGraph}
    (hg : extract_dependencies sc = Except.ok g) :
    (∀ s r st, (s, r) ∈ (plugin_runtest sc tools renderF execF).executed →
      findStep sc.steps s = some st → ¬ r.returncode = 0 →
      st.continue_on_failure = false →
      (plugin_runtest sc tools renderF execF).aborted =
        some (plugin_fail_msg st r) ∧
      (plugin_runtest sc tools renderF execF).executed.getLast? = some (s, r) ∧
      (∀ t r2 i j (hi : i < g.execution_order.length)
        (hj : j < g.execution_order.length),
        (t, r2) ∈ (plugin_runtest sc tools renderF execF).executed →
        s ∈ g.execution_order.get ⟨i, hi⟩ → t ∈ g.execution_order.get ⟨j, hj⟩ →
        j ≤ i)) ∧
    (∀ s r, (s, r) ∈ (plugin_runtest sc tools renderF execF).executed →
      ¬ r.returncode = 0 →
      (s, r.returncode, r.command) ∈
        (plugin_runtest sc tools renderF execF).error_records) ∧
    ((∀ st ∈ sc.steps, st.tool ∈ tools) →
      (∀ s r st, (s, r) ∈ (plugin_runtest sc tools renderF execF).executed →
        findStep sc.steps s = some st → ¬ r.returncode = 0 →
        st.continue_on_failure = true) →
      (plugin_runtest sc tools renderF execF).aborted = none ∧
      (plugin_runtest sc tools renderF execF).executed.map Prod.fst =
        g.execution_order.flatten) := by
  have hval := validate_nil_of_ok hnd hg
  have heq := plugin_runtest_eq_of_ok tools renderF execF hval hg
  rw [heq]
  have hflnd := exec_order_flatten_nodup hg
  refine ⟨?_, ?_, ?_⟩
  · intro s r st hmem hfs hrc hcof
    obtain ⟨h1, h2, k, hk, hsk, hall⟩ := plugin_run_levels_fatal sc tools renderF
      execF g.execution_order [] hmem hfs hrc hcof
    refine ⟨h1, h2, ?_⟩
    intro t r2 i j hi hj hmem2 hsij htj
    obtain ⟨k2, hk2le, hk2, htk2⟩ := hall t r2 hmem2
    have hik : i = k := level_mem_unique hflnd hi hk hsij hsk
    have hjk : j = k2 := level_mem_unique hflnd hj hk2 htj htk2
    rw [hik, hjk]
    exact hk2le
  · intro s r hmem hrc
    exact plugin_run_levels_recorded sc tools renderF execF
      g.execution_order [] hmem hrc
  · intro htools hfail
    refine plugin_run_levels_complete sc tools renderF execF
      g.execution_order [] ?_ hfail
    intro n hn
    have hn2 : n ∈ sc.steps.map Step.name := (exec_order_perm hnd hg).subset hn
    obtain ⟨st2, hst2, hname2⟩ := List.mem_map.mp hn2
    have hfind : (findStep sc.steps n).isSome :=
      List.find?_isSome.mpr ⟨st2, hst2, by simp [hname2]⟩
    cases hfs : findStep sc.steps n with
    | none =>
      rw [hfs] at hfind
      cases hfind
    | some st3 => exact ⟨st3, rfl, htools st3 (findStep_mem hfs)⟩

/-- Fixture: first step of the failure-propagation example. -/
def runStepS1 : Step := { name := "s1", tool := "t" }

/-- Fixture: the fatally failing second step (`continue_on_failure` is
false). -/
def runStepS2 : Step := { name := "s2", tool := "t", depends_on := some ["s1"] }

/-- Fixture: third step, never started after the abort. -/
def runStepS3 : Step := { name := "s3", tool := "t", depends_on := some ["s2"] }

/-- Failure-propagation example scenario of the spec: `s2` fails fatally. -/
def failScenario : Scenario :=
  { name := "runfail", steps := [runStepS1, runStepS2, runStepS3] }

/-- The graph the resolver computes for `failScenario`. -/
def failGraph : DependencyGraph :=
  { nodes :=
      [("s1", ⟨"s1", "t", none, []⟩),
       ("s2", ⟨"s2", "t", none, ["s1"]⟩),
       ("s3", ⟨"s3", "t", none, ["s2"]⟩)],
    edges := [("s1", "s2"), ("s2", "s3")],
    execution_order := [["s1"], ["s2"], ["s3"]] }

/-- Fixture: rendering collaborator that supplies no parameters. -/
def renderNil : Step → Ctx → List (String × PValue) := fun _ _ => []

/-- Fixture: executor making `s2` exit with code 1 and all other steps
succeed. -/
def execFailS2 : Step → List (String × PValue) → ExecResult :=
  fun st _ =>
    if st.name == "s2" then ⟨1, [("o", "v2")], "cmd2", false⟩
    else ⟨0, [("o", "v")], "cmd", false⟩

/-- The result `execFailS2` reports for `s2`. -/
def resS2 : ExecResult := ⟨1, [("o", "v2")], "cmd2", false⟩

/-- Witness for C5: with `s2` failing fatally, the run aborts at `s2`
(nothing after it starts) and the failure is recorded. -/
theorem claim_C5_witness :
    (plugin_runtest failScenario ["t"] renderNil execFailS2).aborted =
      some (plugin_fail_msg runStepS2 resS2) ∧
    (plugin_runtest failScenario ["t"] renderNil execFailS2).executed.getLast? =
      some ("s2", resS2) ∧
    ("s2", resS2.returncode, resS2.command) ∈
      (plugin_runtest failScenario ["t"] renderNil execFailS2).error_records := by
  obtain ⟨h1, h2, _⟩ := @claim_C5_failure_policy failScenario ["t"] renderNil
    execFailS2 (by decide) failGraph rfl
  have hf := h1 "s2" resS2 runStepS2 (by decide) rfl (by decide) rfl
  exact ⟨hf.1, hf.2.1, h2 "s2" resS2 (by decide) (by decide)⟩

/-- Fixture: like `execFailS2` but with the tool-level validation verdict
flipped on every step. -/
def execFailS2v : Step → List (String × PValue) → ExecResult :=
  fun st _ =>
    if st.name == "s2" then ⟨1, [("o", "v2")], "cmd2", true⟩
    else ⟨0, [("o", "v")], "cmd", true⟩

/-- Witness for C10: the fatally failing `s2` has its outputs committed in
the final context, and flipping every validation verdict leaves the run
result unchanged. -/
theorem claim_C10_witness :
    ("s2", resS2.outputs) ∈
      (run_case_scenario failScenario ["t"] renderNil execFailS2).ctx ∧
    (run_case_scenario failScenario ["t"] renderNil execFailS2).result =
      (run_case_scenario failScenario ["t"] renderNil execFailS2v).result := by
  have h := claim_C10_commit_before_check_and_exit_code_only failScenario ["t"]
    renderNil execFailS2 execFailS2v
  refine ⟨h.1 "s2" resS2 (by decide), ?_⟩
  have hagree : execAgree execFailS2 execFailS2v := by
    intro st p
    by_cases hs : st.name = "s2" <;> simp [execFailS2, execFailS2v, hs]
  exact (h.2 hagree).1

end Dact
